import Mathlib

/-!
# BrickHauler: the metrics collector, the configuration and the runner

A shallow embedding of three packages of the load generator: `internal/metrics`
(the collector state with its three operations, the snapshot value and its derived
operations), `internal/config` (method and cookie parsing, `Validate`,
`RequestsPerWorker`) and `internal/runner` (`sendRequest`, `worker`, `Run`).

Conventions of the embedding

* `int`, `int64` and `time.Duration` values are integers; every arithmetic operation
  the source performs on them is followed by `wrap64`, the two's complement reduction.
* `float64` values are rationals (plus the infinities and NaN); every arithmetic
  operation the source performs on them is followed by the IEEE 754 binary64
  rounding `roundQ` (round to nearest, ties to even).
* Strings are sequences of characters (well-formed UTF-8 texts).
* A run-time panic, and a conversion whose result the language leaves to the
  implementation, are the value `none`.
* What the network and the clock decide (the fate and the duration of each request,
  the moment of the cancellation) is data of the environment, over which the theorems
  quantify.
* The claims on the collector alone take an execution as a sequence of completed
  calls. The claims on runs interleave the goroutines at the grain of the steps that
  `sync/atomic` and the mutex make atomic; a schedule names the goroutine that takes
  each step.
-/

namespace BrickHauler

/-! ## int64 arithmetic -/

/-- The values an `int64` can hold. -/
def isInt64 (x : Int) : Prop := -2 ^ 63 ≤ x ∧ x < 2 ^ 63

instance (x : Int) : Decidable (isInt64 x) := by
  unfold isInt64; infer_instance

/-- Two's complement reduction of an integer to the `int64` range. -/
def wrap64 (x : Int) : Int := (x + 2 ^ 63) % 2 ^ 64 - 2 ^ 63

/-- The method `atomic.Int64.Add`: the new value of the cell, `int64` addition. -/
def atomicAdd (v delta : Int) : Int := wrap64 (v + delta)

/-- The operator `/` on `int64`: panics on a zero divisor, truncates toward zero,
and wraps in the single overflowing case `MinInt64 / -1`. -/
def div64 (a b : Int) : Option Int :=
  if b = 0 then none else some (wrap64 (Int.tdiv a b))

/-! ## float64 arithmetic -/

/-- Nearest integer to a rational, ties going to the even neighbour. -/
def roundHalfEven (y : ℚ) : ℤ :=
  if y - ⌊y⌋ < 1 / 2 then ⌊y⌋
  else if 1 / 2 < y - ⌊y⌋ then ⌊y⌋ + 1
  else if ⌊y⌋ % 2 = 0 then ⌊y⌋ else ⌊y⌋ + 1

/-- Exponent of the unit in the last place of the binary64 format at `x`:
53 significant bits, and no exponent below that of the subnormal numbers. -/
def ulpExp (x : ℚ) : ℤ := max (Int.log 2 |x| - 52) (-1074)

/-- Rounding of a rational to the binary64 grid (round to nearest, ties to even),
before the overflow test. -/
def roundQ (x : ℚ) : ℚ := (roundHalfEven (x / 2 ^ ulpExp x) : ℚ) * 2 ^ ulpExp x

/-- A `float64`: a finite value, an infinity with its sign, or NaN.
Zero carries no sign here; the sign of a zero does not survive `int(...)`. -/
inductive Float64 where
  | fin (q : ℚ)
  | inf (negative : Bool)
  | nan
  deriving DecidableEq

namespace Float64

/-- The result of an arithmetic operation whose exact value is `x`. -/
def round (x : ℚ) : Float64 :=
  if (2 : ℚ) ^ 1024 ≤ |roundQ x| then inf (decide (x < 0)) else fin (roundQ x)

/-- The operator `/` on `float64`. -/
def div : Float64 → Float64 → Float64
  | nan, _ => nan
  | _, nan => nan
  | inf _, inf _ => nan
  | inf s, fin b => inf (xor s (decide (b < 0)))
  | fin _, inf _ => fin 0
  | fin a, fin b =>
    if b = 0 then (if a = 0 then nan else inf (decide (a < 0))) else round (a / b)

/-- The operator `*` on `float64`. -/
def mul : Float64 → Float64 → Float64
  | nan, _ => nan
  | _, nan => nan
  | inf s, inf t => inf (xor s t)
  | inf s, fin b => if b = 0 then nan else inf (xor s (decide (b < 0)))
  | fin a, inf t => if a = 0 then nan else inf (xor (decide (a < 0)) t)
  | fin a, fin b => round (a * b)

/-- The conversion `float64(n)` of an integer. -/
def ofInt (n : Int) : Float64 := round n

/-- The conversion `int(x)` of a `float64`: the fraction is discarded (truncation
toward zero); when the result does not fit `int` (64 bits) or `x` is not finite,
the language leaves the value to the implementation: `none`. -/
def toInt : Float64 → Option Int
  | fin q =>
    let t : Int := if 0 ≤ q then ⌊q⌋ else ⌈q⌉
    if -2 ^ 63 ≤ t ∧ t < 2 ^ 63 then some t else none
  | _ => none

end Float64

/-! ## sort.Slice -/

/-- One insertion step: `x` moves in front of the first element it is `less` than. -/
def insertLess {α : Type} (less : α → α → Bool) (x : α) : List α → List α
  | [] => [x]
  | y :: ys => if less x y then x :: y :: ys else y :: insertLess less x ys

/-- The standard library call `sort.Slice(xs, less)`, as an insertion sort driven by
the caller's `less`. (The library sorts short slices by insertion and long ones by
pattern-defeating quicksort; on integers ordered by `<` every sorting procedure
ends with the same sequence.) -/
def sortSlice {α : Type} (less : α → α → Bool) (xs : List α) : List α :=
  xs.foldl (fun acc x => insertLess less x acc) []

/-! ## The collector -/

/-- The struct `Metrics`: three atomic `int64` cells and the guarded slice. -/
structure Metrics where
  successCount : Int
  failureCount : Int
  totalTime : Int
  durations : List Int
  deriving DecidableEq

/-- The struct `Snapshot`. -/
structure Snapshot where
  SuccessCount : Int
  FailureCount : Int
  TotalTime : Int
  Durations : List Int
  deriving DecidableEq

/-- The constructor `New`: zeroed counters and an empty slice of the requested
capacity; `make` panics on a negative capacity. The capacity is not observable
through any operation of the package and is not part of the state. -/
def New (expectedRequests : Int) : Option Metrics :=
  if expectedRequests < 0 then none
  else some { successCount := 0, failureCount := 0, totalTime := 0, durations := [] }

/-- The method `RecordSuccess`. -/
def Metrics.RecordSuccess (m : Metrics) (d : Int) : Metrics :=
  { successCount := atomicAdd m.successCount 1
    failureCount := m.failureCount
    totalTime := atomicAdd m.totalTime d
    durations := m.durations ++ [d] }

/-- The method `RecordFailure`. -/
def Metrics.RecordFailure (m : Metrics) : Metrics :=
  { successCount := m.successCount
    failureCount := atomicAdd m.failureCount 1
    totalTime := m.totalTime
    durations := m.durations }

/-- The method `Snapshot` of the collector: the slice is copied, the copy sorted
with `less(i, j) = durations[i] < durations[j]`, the three cells are read. -/
def Metrics.Snapshot (m : Metrics) : BrickHauler.Snapshot :=
  { SuccessCount := m.successCount
    FailureCount := m.failureCount
    TotalTime := m.totalTime
    Durations := sortSlice (fun a b => decide (a < b)) m.durations }

/-- The method `TotalRequests`. -/
def Snapshot.TotalRequests (s : Snapshot) : Int :=
  wrap64 (s.SuccessCount + s.FailureCount)

/-- The value of `idx` when `Percentile` reaches its last line, on a non-empty
snapshot: `int(p / 100 * float64(len))`, lowered to `len - 1` when it is `len` or
more. -/
def Snapshot.percentileIndex (s : Snapshot) (p : Float64) : Option Int :=
  match Float64.toInt
      (Float64.mul (Float64.div p (Float64.fin 100)) (Float64.ofInt s.Durations.length)) with
  | none => none
  | some idx => some (if (s.Durations.length : Int) ≤ idx then s.Durations.length - 1 else idx)

/-- The method `Percentile`. Indexing the slice with a negative `idx` panics. -/
def Snapshot.Percentile (s : Snapshot) (p : Float64) : Option Int :=
  if s.Durations.length = 0 then some 0
  else
    match s.percentileIndex p with
    | none => none
    | some idx => if 0 ≤ idx then s.Durations[idx.toNat]? else none

/-- The method `AverageTime`. -/
def Snapshot.AverageTime (s : Snapshot) : Option Int :=
  if s.SuccessCount = 0 then some 0
  else div64 s.TotalTime s.SuccessCount

/-- The index as the specification words it: `floor(p/100 * length)` in exact
arithmetic, lowered to `length - 1` when it is `length` or more. -/
def specIndex (p : ℚ) (len : ℕ) : ℤ := min ⌊p / 100 * len⌋ (len - 1)

/-! ## Executions -/

/-- A completed call on the collector. -/
inductive Call where
  | success (d : Int)
  | failure
  deriving DecidableEq

/-- The effect of one call. -/
def Metrics.step (m : Metrics) : Call → Metrics
  | Call.success d => m.RecordSuccess d
  | Call.failure => m.RecordFailure

/-- The effect of a sequence of calls, first call first. -/
def Metrics.run (m : Metrics) (cs : List Call) : Metrics := cs.foldl Metrics.step m

/-- The calls `RecordSuccess(d)` for the `d` of a list, in order. -/
def Metrics.recordAll (m : Metrics) (ds : List Int) : Metrics :=
  ds.foldl Metrics.RecordSuccess m

/-- One millisecond, in nanoseconds. -/
def Millisecond : Int := 1000000

/-- The durations `1ms, 2ms, ..., n ms` in this order. -/
def msUpTo (n : Nat) : List Int :=
  (List.range n).map (fun (i : Nat) => ((i : Int) + 1) * Millisecond)

/-! ## Configuration (`internal/config`) -/

/-- The type `HTTPMethod`, a string. -/
abbrev HTTPMethod := String

/-- The map `validMethods`, as its list of entries. -/
def validMethods : List (HTTPMethod × Bool) :=
  [("GET", true), ("POST", true), ("PUT", true), ("PATCH", true), ("DELETE", true),
   ("HEAD", true), ("OPTIONS", true), ("CONNECT", true), ("TRACE", true)]

/-- The map read `validMethods[m]`: the stored value, and `false` for an absent key. -/
def validMethodsAt (m : HTTPMethod) : Bool := (validMethods.lookup m).getD false

/-- The method `IsValid`. -/
def HTTPMethod.IsValid (m : HTTPMethod) : Bool := validMethodsAt m

/-- The upper case of one character as `strings.ToUpper` computes it. Only the
characters whose upper case is an ASCII letter matter to the method table: the
letters `a` to `z`, the dotless i (U+0131) and the long s (U+017F). Every other
character has an upper case outside `A` to `Z` and is left in place here. -/
def runeToUpper (c : Char) : Char :=
  if 'a' ≤ c ∧ c ≤ 'z' then Char.ofNat (c.toNat - 32)
  else if c = Char.ofNat 0x131 then 'I'
  else if c = Char.ofNat 0x17F then 'S'
  else c

/-- The standard library call `strings.ToUpper`, character by character. -/
def stringsToUpper (s : String) : String := String.mk (s.data.map runeToUpper)

/-- The error of `ParseHTTPMethod`, with the input it quotes. -/
inductive MethodError where
  | invalidMethod (input : String)
  deriving DecidableEq

/-- The function `ParseHTTPMethod`: the method and the error it returns. -/
def ParseHTTPMethod (s : String) : HTTPMethod × Option MethodError :=
  let method : HTTPMethod := stringsToUpper s
  if !validMethodsAt method then ("", some (MethodError.invalidMethod s))
  else (method, none)

/-- The fields of `http.Cookie` that `ParseCookie` sets; the others keep their zero
value. -/
structure Cookie where
  Name : String
  Value : String
  deriving DecidableEq

/-- The two errors of `ParseCookie`. -/
inductive CookieError where
  | invalidFormat (input : String)
  | emptyName
  deriving DecidableEq

/-- The standard library call `strings.Cut(s, sep)` for a separator of one character,
on the characters of `s`: the text before the first separator and the text after it,
or nothing when there is no separator. -/
def cutChars (sep : Char) : List Char → Option (List Char × List Char)
  | [] => none
  | c :: cs =>
    if c = sep then some ([], cs)
    else match cutChars sep cs with
      | some (before, after) => some (c :: before, after)
      | none => none

/-- The function `ParseCookie`: the cookie pointer (`none` for nil) and the error. -/
def ParseCookie (s : String) : Option Cookie × Option CookieError :=
  if s = "" then (none, none)
  else
    match cutChars '=' s.data with
    | none => (none, some (CookieError.invalidFormat s))
    | some (name, value) =>
      if String.mk name = "" then (none, some CookieError.emptyName)
      else (some { Name := String.mk name, Value := String.mk value }, none)

/-- The struct `Config`. The URI and the proxy URL are kept as their text. -/
structure Config where
  URI : String
  Method : HTTPMethod
  Concurrency : Int
  Requests : Int
  Cookies : List Cookie
  ProxyURL : Option String
  LiveFeed : Bool

/-- The four errors of `Validate`. -/
inductive ValidateError where
  | concurrency (got : Int)
  | requests (got : Int)
  | notDivisible (requests concurrency : Int)
  | invalidMethod (m : HTTPMethod)
  deriving DecidableEq

/-- The method `Validate`: the error it returns, `none` for nil. The operator `%` is
the remainder of the truncated division. -/
def Config.Validate (c : Config) : Option ValidateError :=
  if c.Concurrency ≤ 0 then some (ValidateError.concurrency c.Concurrency)
  else if c.Requests ≤ 0 then some (ValidateError.requests c.Requests)
  else if Int.tmod c.Requests c.Concurrency ≠ 0 then
    some (ValidateError.notDivisible c.Requests c.Concurrency)
  else if !c.Method.IsValid then some (ValidateError.invalidMethod c.Method)
  else none

/-- The method `RequestsPerWorker`: integer division, which panics on a zero
divisor. -/
def Config.RequestsPerWorker (c : Config) : Option Int := div64 c.Requests c.Concurrency

/-! ## The runner (`internal/runner`) -/

/-- What happens to one request, as far as `sendRequest` can tell: the request
cannot be built, the transport fails, or a response arrives with its status code,
`duration` being the time measured from the start of the call. -/
inductive Outcome where
  | buildError
  | transportError
  | response (statusCode : Int) (duration : Int)
  deriving DecidableEq

/-- The method `sendRequest`, as the change it makes to the runner's collector. -/
def sendRequest (m : Metrics) : Outcome → Metrics
  | Outcome.buildError => m.RecordFailure
  | Outcome.transportError => m.RecordFailure
  | Outcome.response statusCode duration =>
    if statusCode < 400 then m.RecordSuccess duration else m.RecordFailure

/-- The loop of `worker` with `remaining` iterations to go, at loop variable `i`:
`ctxDone i` tells whether the cancellation signal is triggered when iteration `i`
checks it, `outcome i` what happens to the request of iteration `i`. -/
def workerLoop (ctxDone : Nat → Bool) (outcome : Nat → Outcome) :
    Nat → Nat → Metrics → Metrics
  | 0, _, m => m
  | remaining + 1, i, m =>
    if ctxDone i then m
    else workerLoop ctxDone outcome remaining (i + 1) (sendRequest m (outcome i))

/-- The method `worker`: `for i := 0; i < numRequests; i++`, leaving at the first
iteration that finds the signal triggered. -/
def worker (ctxDone : Nat → Bool) (outcome : Nat → Outcome) (numRequests : Int)
    (m : Metrics) : Metrics :=
  workerLoop ctxDone outcome numRequests.toNat 0 m

/-- The call on the collector that one `sendRequest` makes. -/
def sendRequestCall : Outcome → Call
  | Outcome.buildError => Call.failure
  | Outcome.transportError => Call.failure
  | Outcome.response statusCode duration =>
    if statusCode < 400 then Call.success duration else Call.failure

/-- The calls on the collector that the loop of `worker` makes, in order. -/
def workerLoopCalls (ctxDone : Nat → Bool) (outcome : Nat → Outcome) :
    Nat → Nat → List Call
  | 0, _ => []
  | remaining + 1, i =>
    if ctxDone i then []
    else sendRequestCall (outcome i) :: workerLoopCalls ctxDone outcome remaining (i + 1)

/-- The calls on the collector that one `worker` makes, in order. -/
def workerCalls (ctxDone : Nat → Bool) (outcome : Nat → Outcome) (numRequests : Int) :
    List Call :=
  workerLoopCalls ctxDone outcome numRequests.toNat 0

/-- The steps of the goroutines of a run that touch the collector, each atomic: the
three statements of `RecordSuccess` (two atomic additions and the append under the
mutex), the atomic addition of `RecordFailure`, and a `Snapshot` taken by the progress
reporter. -/
inductive Atom where
  | addSuccess
  | addTotal (d : Int)
  | appendDuration (d : Int)
  | addFailure
  | snapshot
  deriving DecidableEq

/-- The built-in `copy(dst, src)`, as the contents of `dst` afterwards: the first
`min(len(dst), len(src))` elements come from `src`. -/
def copySlice (dst src : List Int) : List Int := src.take dst.length ++ dst.drop src.length

/-- The method `Snapshot` as a transition of the collector: the snapshot returned and
the collector as the call leaves it. The local slice is made with the length of the
collector's and filled by `copy`; it is the local slice that `sort.Slice` permutes,
and no statement of the method writes to the collector. -/
def Metrics.SnapshotCall (m : Metrics) : BrickHauler.Snapshot × Metrics :=
  let durations := List.replicate m.durations.length (0 : Int)
  let durations := copySlice durations m.durations
  let durations := sortSlice (fun a b => decide (a < b)) durations
  ({ SuccessCount := m.successCount
     FailureCount := m.failureCount
     TotalTime := m.totalTime
     Durations := durations }, m)

/-- The effect of one atomic step on the collector. -/
def Metrics.apply (m : Metrics) : Atom → Metrics
  | Atom.addSuccess => { m with successCount := atomicAdd m.successCount 1 }
  | Atom.addTotal d => { m with totalTime := atomicAdd m.totalTime d }
  | Atom.appendDuration d => { m with durations := m.durations ++ [d] }
  | Atom.addFailure => { m with failureCount := atomicAdd m.failureCount 1 }
  | Atom.snapshot => m.SnapshotCall.2

/-- The atomic steps of one call on the collector, in program order. -/
def Call.atoms : Call → List Atom
  | Call.success d => [Atom.addSuccess, Atom.addTotal d, Atom.appendDuration d]
  | Call.failure => [Atom.addFailure]

/-- The trace of a schedule: `schedule` names, step after step, the goroutine that
runs its next atomic step. The result is the sequence of steps in the order they
run; there is none when the schedule names a goroutine with no step left, or ends
before every goroutine has finished. -/
def interleave {α : Type} : List (List α) → List Nat → Option (List α)
  | threads, [] => if threads.all List.isEmpty then some [] else none
  | threads, k :: schedule =>
    match threads[k]? with
    | some (a :: rest) =>
      match interleave (threads.set k rest) schedule with
      | some trace => some (a :: trace)
      | none => none
    | _ => none

/-- What the environment decides during one run: for worker `w` and iteration `i`,
whether the cancellation signal is triggered when the iteration checks it and what
happens to the request; and how many ticks the progress reporter handles. -/
structure RunEnv where
  ctxDone : Nat → Nat → Bool
  outcome : Nat → Nat → Outcome
  ticks : Nat

/-- The goroutines that `Run` starts, each as the atomic steps it takes on the
collector: one worker per unit of `Concurrency`, all with the quota
`RequestsPerWorker()`, and the progress reporter when `LiveFeed` is set. -/
def Run.goroutines (cfg : Config) (env : RunEnv) : Option (List (List Atom)) :=
  match cfg.RequestsPerWorker with
  | none => none
  | some requestsPerWorker =>
    some ((List.range cfg.Concurrency.toNat).map (fun w =>
        ((workerCalls (env.ctxDone w) (env.outcome w) requestsPerWorker).map Call.atoms).flatten)
      ++ (if cfg.LiveFeed then [List.replicate env.ticks Atom.snapshot] else []))

/-- The method `Run` of a runner made by `New(cfg, w)`, under one schedule of its
goroutines: the snapshot handed to the report once every goroutine has returned.
There is none when making the runner or starting the run panics, or when `schedule`
is not a complete schedule of the goroutines. -/
def Run (cfg : Config) (env : RunEnv) (schedule : List Nat) : Option Snapshot :=
  match New cfg.Requests, Run.goroutines cfg env with
  | some m, some goroutines =>
    match interleave goroutines schedule with
    | some trace => some (trace.foldl Metrics.apply m).Snapshot
    | none => none
  | _, _ => none

/-! ## Bookkeeping on traces -/

/-- The amount an atomic step adds to the cumulative total. -/
def Atom.totalDelta : Atom → Int
  | Atom.addTotal d => d
  | _ => 0

/-- The duration an atomic step appends to the collection, if any. -/
def Atom.appended : Atom → Option Int
  | Atom.appendDuration d => some d
  | _ => none

/-- Whether a call is a `RecordSuccess`. -/
def Call.isSuccess : Call → Bool
  | Call.success _ => true
  | Call.failure => false

/-- The duration a call records, if any. -/
def Call.recorded : Call → Option Int
  | Call.success d => some d
  | Call.failure => none

/-- The calls of all the workers of a run, worker after worker. -/
def Run.calls (cfg : Config) (env : RunEnv) (requestsPerWorker : Int) : List Call :=
  ((List.range cfg.Concurrency.toNat).map (fun w =>
    workerCalls (env.ctxDone w) (env.outcome w) requestsPerWorker)).flatten

/-- The goroutines of `n` producers that call `RecordSuccess` `k` times each,
producer `w` recording `d w j` at its call `j`. -/
def producers (n k : Nat) (d : Nat → Nat → Int) : List (List Atom) :=
  (List.range n).map (fun w =>
    (((List.range k).map (fun j => Call.success (d w j))).map Call.atoms).flatten)

/-- The fixed points of the report, the slice `percentiles` of `printPercentiles`. -/
def percentiles : List ℚ := [50, 66, 75, 80, 90, 95, 98, 99, 100]

/-! ## Lemmas: rounding -/

theorem roundHalfEven_intCast (n : ℤ) : roundHalfEven (n : ℚ) = n := by
  unfold roundHalfEven
  simp

theorem roundHalfEven_bounds (y : ℚ) :
    (⌊y⌋ ≤ roundHalfEven y ∧ roundHalfEven y ≤ ⌊y⌋ + 1) := by
  unfold roundHalfEven
  split_ifs <;> omega

theorem abs_roundHalfEven_sub_le (y : ℚ) : |(roundHalfEven y : ℚ) - y| ≤ 1 / 2 := by
  have h1 := Int.floor_le y
  have h2 := Int.lt_floor_add_one y
  unfold roundHalfEven
  rw [abs_le]
  split_ifs with ha hb hc
  · constructor <;> linarith
  · push_cast; constructor <;> linarith
  · have : y - ⌊y⌋ = 1 / 2 := le_antisymm (not_lt.mp hb) (not_lt.mp ha)
    constructor <;> linarith
  · have : y - ⌊y⌋ = 1 / 2 := le_antisymm (not_lt.mp hb) (not_lt.mp ha)
    push_cast; constructor <;> linarith

theorem roundHalfEven_mono {y z : ℚ} (h : y ≤ z) : roundHalfEven y ≤ roundHalfEven z := by
  rcases (Int.floor_mono h).lt_or_eq with hlt | heq
  · have := (roundHalfEven_bounds y).2
    have := (roundHalfEven_bounds z).1
    omega
  · unfold roundHalfEven
    rw [← heq]
    have hyz : y - ⌊y⌋ ≤ z - ⌊y⌋ := by linarith
    split_ifs <;> first | omega | (exfalso; linarith)

theorem ulpExp_ge (x : ℚ) : -1074 ≤ ulpExp x := le_max_right _ _

theorem log_sub_le_ulpExp (x : ℚ) : Int.log 2 |x| - 52 ≤ ulpExp x := le_max_left _ _

theorem two_zpow_pos (e : ℤ) : (0 : ℚ) < 2 ^ e := zpow_pos (by norm_num) e

theorem log_lt_of_lt {x : ℚ} {k : ℤ} (hx : 0 < x) (h : x < 2 ^ k) : Int.log 2 x < k := by
  have := (Int.lt_zpow_iff_log_lt (b := 2) (by norm_num) hx (x := k)).1 (by simpa using h)
  exact this

theorem le_log_of_le {x : ℚ} {k : ℤ} (hx : 0 < x) (h : 2 ^ k ≤ x) : k ≤ Int.log 2 x := by
  have := (Int.zpow_le_iff_le_log (b := 2) (by norm_num) hx (x := k)).1 (by simpa using h)
  exact this

theorem lt_two_zpow_ulpExp {x : ℚ} (hx : 0 ≤ x) : x < 2 ^ (ulpExp x + 53) := by
  have h1 : x < 2 ^ (Int.log 2 x + 1) := by
    simpa using Int.lt_zpow_succ_log_self (b := 2) (by norm_num) x
  have h2 : Int.log 2 x + 1 ≤ ulpExp x + 53 := by
    have := log_sub_le_ulpExp x
    rw [abs_of_nonneg hx] at this
    omega
  exact lt_of_lt_of_le h1 (zpow_le_zpow_right₀ (by norm_num) h2)

theorem two_zpow_ulpExp_le {x : ℚ} (hx : 0 < x) (he : -1074 < ulpExp x) :
    2 ^ (ulpExp x + 52) ≤ x := by
  have h1 : (2 : ℚ) ^ Int.log 2 x ≤ x := by
    simpa using Int.zpow_log_le_self (b := 2) (by norm_num) hx
  have h2 : ulpExp x = Int.log 2 x - 52 := by
    unfold ulpExp at he ⊢
    rw [abs_of_pos hx] at he ⊢
    rcases max_cases (Int.log 2 x - 52) (-1074) with ⟨h, _⟩ | ⟨h, _⟩
    · exact h
    · rw [h] at he; omega
  rw [h2]
  simpa using h1

theorem scaled_lt {x : ℚ} (hx : 0 ≤ x) : x / 2 ^ ulpExp x < 2 ^ (53 : ℕ) := by
  rw [div_lt_iff₀ (two_zpow_pos _)]
  have := lt_two_zpow_ulpExp hx
  rw [add_comm, zpow_add₀ (by norm_num)] at this
  rw [← zpow_natCast]
  exact this

theorem le_scaled {x : ℚ} (hx : 0 < x) (he : -1074 < ulpExp x) :
    2 ^ (52 : ℕ) ≤ x / 2 ^ ulpExp x := by
  rw [le_div_iff₀ (two_zpow_pos _)]
  have := two_zpow_ulpExp_le hx he
  rw [add_comm, zpow_add₀ (by norm_num)] at this
  rw [← zpow_natCast]
  exact this

theorem roundHalfEven_two_pow (n : ℕ) : roundHalfEven ((2 : ℚ) ^ n) = 2 ^ n := by
  have h := roundHalfEven_intCast ((2 : ℤ) ^ n)
  rw [Int.cast_pow] at h
  exact h

theorem roundQ_zero : roundQ 0 = 0 := by
  unfold roundQ
  simp [roundHalfEven]

theorem roundQ_nonneg {x : ℚ} (hx : 0 ≤ x) : 0 ≤ roundQ x := by
  unfold roundQ
  have h0 : (0 : ℚ) ≤ x / 2 ^ ulpExp x := div_nonneg hx (two_zpow_pos _).le
  have h1 : (0 : ℤ) ≤ roundHalfEven (x / 2 ^ ulpExp x) := by
    have := roundHalfEven_mono h0
    simpa [roundHalfEven] using this
  exact mul_nonneg (by exact_mod_cast h1) (two_zpow_pos _).le

theorem roundQ_le_pow {x : ℚ} (hx : 0 ≤ x) : roundQ x ≤ 2 ^ (ulpExp x + 53) := by
  unfold roundQ
  have h1 : roundHalfEven (x / 2 ^ ulpExp x) ≤ 2 ^ (53 : ℕ) := by
    have := roundHalfEven_mono (scaled_lt hx).le
    rw [roundHalfEven_two_pow] at this
    exact this
  have h2 : ((roundHalfEven (x / 2 ^ ulpExp x) : ℤ) : ℚ) ≤ 2 ^ (53 : ℕ) := by exact_mod_cast h1
  calc (roundHalfEven (x / 2 ^ ulpExp x) : ℚ) * 2 ^ ulpExp x
      ≤ 2 ^ (53 : ℕ) * 2 ^ ulpExp x := mul_le_mul_of_nonneg_right h2 (two_zpow_pos _).le
    _ = 2 ^ (ulpExp x + 53) := by
        rw [zpow_add₀ (by norm_num), mul_comm]; norm_num

theorem pow_le_roundQ {x : ℚ} (hx : 0 < x) (he : -1074 < ulpExp x) :
    2 ^ (ulpExp x + 52) ≤ roundQ x := by
  unfold roundQ
  have h1 : 2 ^ (52 : ℕ) ≤ roundHalfEven (x / 2 ^ ulpExp x) := by
    have := roundHalfEven_mono (le_scaled hx he)
    rw [roundHalfEven_two_pow] at this
    exact this
  have h2 : (2 : ℚ) ^ (52 : ℕ) ≤ ((roundHalfEven (x / 2 ^ ulpExp x) : ℤ) : ℚ) := by exact_mod_cast h1
  calc (2 : ℚ) ^ (ulpExp x + 52) = 2 ^ (52 : ℕ) * 2 ^ ulpExp x := by
        rw [zpow_add₀ (by norm_num), mul_comm]; norm_num
    _ ≤ (roundHalfEven (x / 2 ^ ulpExp x) : ℚ) * 2 ^ ulpExp x :=
        mul_le_mul_of_nonneg_right h2 (two_zpow_pos _).le

theorem ulpExp_mono {x y : ℚ} (hx : 0 < x) (h : x ≤ y) : ulpExp x ≤ ulpExp y := by
  unfold ulpExp
  rw [abs_of_pos hx, abs_of_pos (lt_of_lt_of_le hx h)]
  have := Int.log_mono_right (b := 2) hx h
  exact max_le_max (by omega) le_rfl

theorem roundQ_mono {x y : ℚ} (hx : 0 ≤ x) (h : x ≤ y) : roundQ x ≤ roundQ y := by
  rcases hx.lt_or_eq with hpos | hzero
  · rcases (ulpExp_mono hpos h).lt_or_eq with hlt | heq
    · have hy : 0 < y := lt_of_lt_of_le hpos h
      have h1 := roundQ_le_pow hx
      have h2 := pow_le_roundQ hy (lt_of_le_of_lt (ulpExp_ge x) hlt)
      have h3 : (2 : ℚ) ^ (ulpExp x + 53) ≤ 2 ^ (ulpExp y + 52) :=
        zpow_le_zpow_right₀ (by norm_num) (by omega)
      linarith
    · unfold roundQ
      rw [← heq]
      have h1 : x / 2 ^ ulpExp x ≤ y / 2 ^ ulpExp x :=
        div_le_div_of_nonneg_right h (two_zpow_pos _).le
      have h2 := roundHalfEven_mono h1
      exact mul_le_mul_of_nonneg_right (by exact_mod_cast h2) (two_zpow_pos _).le
  · rw [← hzero, roundQ_zero]
    exact roundQ_nonneg (hzero ▸ h)

theorem abs_roundQ_sub_le (x : ℚ) : |roundQ x - x| ≤ 2 ^ ulpExp x / 2 := by
  have hp := two_zpow_pos (ulpExp x)
  have h := abs_roundHalfEven_sub_le (x / 2 ^ ulpExp x)
  have e : roundQ x - x = ((roundHalfEven (x / 2 ^ ulpExp x) : ℚ) - x / 2 ^ ulpExp x) * 2 ^ ulpExp x := by
    unfold roundQ
    field_simp
  rw [e, abs_mul, abs_of_pos hp]
  calc _ ≤ 1 / 2 * 2 ^ ulpExp x := mul_le_mul_of_nonneg_right h hp.le
    _ = _ := by ring

theorem roundQ_grid (k j : ℤ) (hk : |k| < 2 ^ (53 : ℕ)) (hj : -1074 ≤ j) :
    roundQ ((k : ℚ) * 2 ^ j) = (k : ℚ) * 2 ^ j := by
  rcases eq_or_ne k 0 with rfl | hk0
  · simp [roundQ_zero]
  have habs : |(k : ℚ) * 2 ^ j| = (|k| : ℤ) * 2 ^ j := by
    rw [abs_mul, abs_of_pos (two_zpow_pos j)]; simp
  have hpos : (0 : ℚ) < |(k : ℚ) * 2 ^ j| := by
    rw [habs]; exact mul_pos (by exact_mod_cast abs_pos.mpr hk0) (two_zpow_pos j)
  have hlt : |(k : ℚ) * 2 ^ j| < 2 ^ (53 + j) := by
    rw [habs, zpow_add₀ (by norm_num)]
    exact mul_lt_mul_of_pos_right (by exact_mod_cast hk) (two_zpow_pos j)
  have hlog := log_lt_of_lt hpos hlt
  have he : ulpExp ((k : ℚ) * 2 ^ j) ≤ j := by
    unfold ulpExp
    exact max_le (by omega) hj
  obtain ⟨d, hd⟩ : ∃ d : ℕ, j = ulpExp ((k : ℚ) * 2 ^ j) + d :=
    ⟨(j - ulpExp ((k : ℚ) * 2 ^ j)).toNat, by omega⟩
  have hsc : (k : ℚ) * 2 ^ j / 2 ^ ulpExp ((k : ℚ) * 2 ^ j) = ((k * 2 ^ d : ℤ) : ℚ) := by
    rw [div_eq_iff (two_zpow_pos _).ne']
    push_cast
    conv_lhs => rw [hd]
    rw [zpow_add₀ (by norm_num), zpow_natCast]
    ring
  unfold roundQ
  rw [hsc, roundHalfEven_intCast, ← hsc]
  field_simp

/-! ## Lemmas: the index computed by Percentile -/

theorem round_eq_fin {x : ℚ} (h0 : 0 ≤ roundQ x) (h : roundQ x ≤ 2 ^ (53 : ℕ)) :
    Float64.round x = Float64.fin (roundQ x) := by
  unfold Float64.round
  rw [abs_of_nonneg h0, if_neg]
  have : (2 : ℚ) ^ (53 : ℕ) < 2 ^ 1024 := by norm_num
  exact not_le.mpr (lt_of_le_of_lt h this)

theorem roundQ_natCast (n : ℕ) (h : n < 2 ^ 53) : roundQ (n : ℚ) = n := by
  have := roundQ_grid (n : ℤ) 0 (by rw [abs_of_nonneg (by positivity)]; exact_mod_cast h) (by norm_num)
  simpa using this

theorem roundQ_one : roundQ 1 = 1 := by
  simpa using roundQ_natCast 1 (by norm_num)

theorem roundQ_div_bounds {q : ℚ} (h0 : 0 ≤ q) (h100 : q ≤ 100) :
    0 ≤ roundQ (q / 100) ∧ roundQ (q / 100) ≤ 1 := by
  have hx0 : (0 : ℚ) ≤ q / 100 := by positivity
  have hx1 : q / 100 ≤ 1 := by rw [div_le_one (by norm_num)]; exact h100
  refine ⟨roundQ_nonneg hx0, ?_⟩
  have := roundQ_mono hx0 hx1
  rwa [roundQ_one] at this

theorem roundQ_prod_bounds {q : ℚ} {n : ℕ} (h0 : 0 ≤ q) (h100 : q ≤ 100) (hn : n < 2 ^ 53) :
    0 ≤ roundQ (roundQ (q / 100) * n) ∧ roundQ (roundQ (q / 100) * n) ≤ n := by
  obtain ⟨ha0, ha1⟩ := roundQ_div_bounds h0 h100
  have hn0 : (0 : ℚ) ≤ n := by positivity
  have hy0 : 0 ≤ roundQ (q / 100) * n := mul_nonneg ha0 hn0
  have hy1 : roundQ (q / 100) * n ≤ n := by
    calc roundQ (q / 100) * n ≤ 1 * n := mul_le_mul_of_nonneg_right ha1 hn0
      _ = n := one_mul _
  refine ⟨roundQ_nonneg hy0, ?_⟩
  have := roundQ_mono hy0 hy1
  rwa [roundQ_natCast n hn] at this

theorem float_product {q : ℚ} {n : ℕ} (h0 : 0 ≤ q) (h100 : q ≤ 100) (hn : n < 2 ^ 53) :
    Float64.mul (Float64.div (Float64.fin q) (Float64.fin 100)) (Float64.ofInt n)
      = Float64.fin (roundQ (roundQ (q / 100) * n)) := by
  obtain ⟨ha0, ha1⟩ := roundQ_div_bounds h0 h100
  obtain ⟨hr0, hr1⟩ := roundQ_prod_bounds h0 h100 hn
  have hn' : ((n : ℕ) : ℚ) ≤ 2 ^ (53 : ℕ) := by exact_mod_cast hn.le
  have hdiv : Float64.div (Float64.fin q) (Float64.fin 100) = Float64.fin (roundQ (q / 100)) := by
    simp only [Float64.div]
    rw [if_neg (by norm_num)]
    exact round_eq_fin ha0 (ha1.trans (by norm_num))
  have hof : Float64.ofInt n = Float64.fin n := by
    unfold Float64.ofInt
    have e : (((n : ℕ) : ℤ) : ℚ) = (n : ℚ) := by push_cast; rfl
    rw [e, round_eq_fin (by rw [roundQ_natCast n hn]; positivity)
      (by rw [roundQ_natCast n hn]; exact hn'), roundQ_natCast n hn]
  rw [hdiv, hof]
  simp only [Float64.mul]
  exact round_eq_fin hr0 (hr1.trans hn')

theorem percentileIndex_fin (s : Snapshot) (q : ℚ)
    (hlen : s.Durations.length < 2 ^ 53) (h0 : 0 ≤ q) (h100 : q ≤ 100) :
    s.percentileIndex (Float64.fin q)
      = some (min ⌊roundQ (roundQ (q / 100) * s.Durations.length)⌋ (s.Durations.length - 1))
    ∧ 0 ≤ ⌊roundQ (roundQ (q / 100) * s.Durations.length)⌋ := by
  obtain ⟨hr0, hr1⟩ := roundQ_prod_bounds h0 h100 hlen
  have hf0 : 0 ≤ ⌊roundQ (roundQ (q / 100) * s.Durations.length)⌋ := Int.floor_nonneg.mpr hr0
  have hf1 : ⌊roundQ (roundQ (q / 100) * s.Durations.length)⌋ ≤ s.Durations.length := by
    have := Int.floor_mono hr1
    simpa using this
  refine ⟨?_, hf0⟩
  unfold Snapshot.percentileIndex
  rw [float_product h0 h100 hlen]
  simp only [Float64.toInt, if_pos hr0]
  have hlen' : (s.Durations.length : ℤ) < 2 ^ 53 := by exact_mod_cast hlen
  rw [if_pos (by constructor <;> omega)]
  simp only [Option.some.injEq]
  split_ifs with h
  · omega
  · omega

theorem abs_roundQ_sub_le_of_lt {x : ℚ} {k : ℤ} (hx : 0 ≤ x) (h : x < 2 ^ k) (hk : -1021 ≤ k) :
    |roundQ x - x| ≤ 2 ^ (k - 54) := by
  rcases hx.lt_or_eq with hpos | hzero
  · have hlog := log_lt_of_lt hpos h
    have he : ulpExp x ≤ k - 53 := by
      unfold ulpExp
      rw [abs_of_pos hpos]
      exact max_le (by omega) (by omega)
    calc |roundQ x - x| ≤ 2 ^ ulpExp x / 2 := abs_roundQ_sub_le x
      _ ≤ 2 ^ (k - 53) / 2 :=
          div_le_div_of_nonneg_right (zpow_le_zpow_right₀ (by norm_num) he) (by norm_num)
      _ = 2 ^ (k - 54) := by
          have : k - 53 = (k - 54) + 1 := by ring
          rw [this, zpow_add₀ (by norm_num)]
          simp
  · rw [← hzero, roundQ_zero]
    simp [(two_zpow_pos _).le]

theorem abs_roundQ_div_sub_le {q : ℚ} (h0 : 0 ≤ q) (h100 : q ≤ 100) :
    |roundQ (q / 100) - q / 100| ≤ 2 ^ (-54 : ℤ) := by
  have hx0 : (0 : ℚ) ≤ q / 100 := by positivity
  rcases h100.lt_or_eq with hlt | heq
  · have hx1 : q / 100 < 2 ^ (0 : ℤ) := by
      rw [zpow_zero, div_lt_one (by norm_num)]; exact hlt
    simpa using abs_roundQ_sub_le_of_lt hx0 hx1 (by norm_num)
  · rw [heq]
    norm_num [roundQ_one]

theorem abs_float_sub_exact_le {q : ℚ} {n : ℕ} (h0 : 0 ≤ q) (h100 : q ≤ 100)
    (hn : n ≤ 2 ^ 52) :
    |roundQ (roundQ (q / 100) * n) - q / 100 * n| ≤ 3 / 4 := by
  have hn53 : n < 2 ^ 53 := lt_of_le_of_lt hn (by norm_num)
  obtain ⟨ha0, ha1⟩ := roundQ_div_bounds h0 h100
  have hn0 : (0 : ℚ) ≤ n := by positivity
  have hnq : (n : ℚ) ≤ 2 ^ (52 : ℕ) := by exact_mod_cast hn
  have hy0 : 0 ≤ roundQ (q / 100) * n := mul_nonneg ha0 hn0
  have hy1 : roundQ (q / 100) * n < 2 ^ (53 : ℤ) := by
    have : roundQ (q / 100) * n ≤ 1 * n := mul_le_mul_of_nonneg_right ha1 hn0
    have h2 : (2 : ℚ) ^ (52 : ℕ) < 2 ^ (53 : ℤ) := by norm_num
    linarith
  have e1 := abs_roundQ_sub_le_of_lt hy0 hy1 (by norm_num)
  have e2 := abs_roundQ_div_sub_le h0 h100
  have e3 : |roundQ (q / 100) * n - q / 100 * n| ≤ 1 / 4 := by
    rw [← sub_mul, abs_mul, abs_of_nonneg hn0]
    calc |roundQ (q / 100) - q / 100| * n ≤ 2 ^ (-54 : ℤ) * 2 ^ (52 : ℕ) :=
          mul_le_mul e2 hnq hn0 (two_zpow_pos _).le
      _ = 1 / 4 := by norm_num
  have e1' : |roundQ (roundQ (q / 100) * n) - roundQ (q / 100) * n| ≤ 1 / 2 := by
    have : (2 : ℚ) ^ ((53 : ℤ) - 54) = 1 / 2 := by norm_num
    rw [this] at e1
    exact e1
  have := abs_sub_le (roundQ (roundQ (q / 100) * n)) (roundQ (q / 100) * n) (q / 100 * n)
  linarith

theorem abs_floor_sub_floor_le {r e : ℚ} (h : |r - e| < 1) : |⌊r⌋ - ⌊e⌋| ≤ 1 := by
  rw [abs_lt] at h
  have h1 : ⌊r⌋ ≤ ⌊e⌋ + 1 := by
    have := Int.floor_mono (show r ≤ e + 1 by linarith)
    rwa [Int.floor_add_one] at this
  have h2 : ⌊e⌋ ≤ ⌊r⌋ + 1 := by
    have := Int.floor_mono (show e ≤ r + 1 by linarith)
    rwa [Int.floor_add_one] at this
  rw [abs_le]
  constructor <;> omega

theorem Percentile_fin (s : Snapshot) (q : ℚ) (hne : s.Durations ≠ [])
    (hlen : s.Durations.length < 2 ^ 53) (h0 : 0 ≤ q) (h100 : q ≤ 100) :
    ∃ i : ℕ, ∃ hi : i < s.Durations.length,
      (i : ℤ) = min ⌊roundQ (roundQ (q / 100) * s.Durations.length)⌋ (s.Durations.length - 1)
      ∧ s.percentileIndex (Float64.fin q) = some (i : ℤ)
      ∧ s.Percentile (Float64.fin q) = some (s.Durations.get ⟨i, hi⟩) := by
  obtain ⟨hidx, hf0⟩ := percentileIndex_fin s q hlen h0 h100
  have hpos : 0 < s.Durations.length := List.length_pos.mpr hne
  refine ⟨(min ⌊roundQ (roundQ (q / 100) * s.Durations.length)⌋
      (s.Durations.length - 1)).toNat, by omega, by omega, ?_, ?_⟩
  · rw [hidx]; congr 1; omega
  · unfold Snapshot.Percentile
    rw [if_neg (by omega), hidx]
    simp only
    rw [if_pos (by omega)]
    rw [List.getElem?_eq_getElem (by omega)]
    rfl

/-! ## Lemmas: sorting and recording -/

theorem insertLess_perm {α : Type} (less : α → α → Bool) (x : α) (l : List α) :
    (insertLess less x l).Perm (x :: l) := by
  induction l with
  | nil => simp [insertLess]
  | cons y ys ih =>
    unfold insertLess
    split_ifs
    · exact List.Perm.refl _
    · exact (List.Perm.cons y ih).trans (List.Perm.swap x y ys)

theorem foldl_insertLess_perm {α : Type} (less : α → α → Bool) (l acc : List α) :
    (l.foldl (fun acc x => insertLess less x acc) acc).Perm (acc ++ l) := by
  induction l generalizing acc with
  | nil => simp
  | cons y ys ih =>
    simp only [List.foldl_cons]
    refine (ih _).trans ?_
    have h1 : (insertLess less y acc ++ ys).Perm ((y :: acc) ++ ys) :=
      List.Perm.append_right ys (insertLess_perm less y acc)
    refine h1.trans ?_
    simp only [List.cons_append]
    exact List.perm_middle.symm

theorem sortSlice_perm {α : Type} (less : α → α → Bool) (l : List α) :
    (sortSlice less l).Perm l := by
  simpa [sortSlice] using foldl_insertLess_perm less l []

theorem insertLess_sorted (x : Int) (l : List Int) (h : l.Sorted (· ≤ ·)) :
    (insertLess (fun a b => decide (a < b)) x l).Sorted (· ≤ ·) := by
  induction l with
  | nil => simp [insertLess]
  | cons y ys ih =>
    unfold insertLess
    have hy := List.sorted_cons.mp h
    split_ifs with hlt
    · have hxy : x < y := by simpa using hlt
      refine List.sorted_cons.mpr ⟨?_, h⟩
      intro b hb
      rcases List.mem_cons.mp hb with rfl | hb
      · exact hxy.le
      · exact hxy.le.trans (hy.1 b hb)
    · have hyx : y ≤ x := by simpa using hlt
      refine List.sorted_cons.mpr ⟨?_, ih hy.2⟩
      intro b hb
      rcases List.mem_cons.mp ((insertLess_perm _ x ys).subset hb) with rfl | hb
      · exact hyx
      · exact hy.1 b hb

theorem foldl_insertLess_sorted (l acc : List Int) (h : acc.Sorted (· ≤ ·)) :
    (l.foldl (fun acc x => insertLess (fun a b => decide (a < b)) x acc) acc).Sorted (· ≤ ·) := by
  induction l generalizing acc with
  | nil => simpa using h
  | cons y ys ih => exact ih _ (insertLess_sorted y acc h)

theorem sortSlice_sorted (l : List Int) :
    (sortSlice (fun a b => decide (a < b)) l).Sorted (· ≤ ·) :=
  foldl_insertLess_sorted l [] List.sorted_nil

theorem sortSlice_eq_of_sorted (l : List Int) (h : l.Sorted (· ≤ ·)) :
    sortSlice (fun a b => decide (a < b)) l = l :=
  List.eq_of_perm_of_sorted (sortSlice_perm _ l) (sortSlice_sorted l) h

theorem sorted_msUpTo (n : ℕ) : (msUpTo n).Sorted (· ≤ ·) := by
  unfold msUpTo
  refine List.Pairwise.map _ ?_ (List.pairwise_lt_range n)
  intro a b hab
  simp only [Millisecond]
  have : (a : ℤ) < b := by exact_mod_cast hab
  omega

theorem recordAll_durations (m : Metrics) (ds : List Int) :
    (m.recordAll ds).durations = m.durations ++ ds := by
  unfold Metrics.recordAll
  induction ds generalizing m with
  | nil => simp
  | cons d ds ih => simp [ih, Metrics.RecordSuccess]

/-! ## Lemmas: the collector -/

theorem wrap64_of_isInt64 {x : Int} (h : isInt64 x) : wrap64 x = x := by
  unfold isInt64 at h
  unfold wrap64
  omega

theorem wrap64_add_left (a b : Int) : wrap64 (wrap64 a + b) = wrap64 (a + b) := by
  unfold wrap64
  omega

theorem New_eq {n : Int} {m : Metrics} (h : New n = some m) :
    m = { successCount := 0, failureCount := 0, totalTime := 0, durations := [] } := by
  unfold New at h
  split_ifs at h
  exact (Option.some.inj h).symm

theorem recordAll_failureCount (m : Metrics) (ds : List Int) :
    (m.recordAll ds).failureCount = m.failureCount := by
  unfold Metrics.recordAll
  induction ds generalizing m with
  | nil => rfl
  | cons d ds ih => simp [ih, Metrics.RecordSuccess]

theorem recordAll_successCount (m : Metrics) (ds : List Int) :
    wrap64 (m.recordAll ds).successCount = wrap64 (m.successCount + ds.length) := by
  unfold Metrics.recordAll
  induction ds generalizing m with
  | nil => simp
  | cons d ds ih =>
    simp only [List.foldl_cons, List.length_cons]
    rw [ih]
    simp only [Metrics.RecordSuccess, atomicAdd]
    rw [wrap64_add_left]
    congr 1
    push_cast
    ring

theorem recordAll_totalTime (m : Metrics) (ds : List Int) :
    wrap64 (m.recordAll ds).totalTime = wrap64 (m.totalTime + ds.sum) := by
  unfold Metrics.recordAll
  induction ds generalizing m with
  | nil => simp
  | cons d ds ih =>
    simp only [List.foldl_cons, List.sum_cons]
    rw [ih]
    simp only [Metrics.RecordSuccess, atomicAdd]
    rw [wrap64_add_left]
    congr 1
    ring

theorem isInt64_wrap64 (x : Int) : isInt64 (wrap64 x) := by
  unfold isInt64 wrap64
  omega

theorem recordAll_isInt64 (m : Metrics) (ds : List Int)
    (h1 : isInt64 m.successCount) (h2 : isInt64 m.totalTime) :
    isInt64 (m.recordAll ds).successCount ∧ isInt64 (m.recordAll ds).totalTime := by
  unfold Metrics.recordAll
  induction ds generalizing m with
  | nil => exact ⟨h1, h2⟩
  | cons d ds ih =>
    simp only [List.foldl_cons]
    exact ih _ (isInt64_wrap64 _) (isInt64_wrap64 _)

theorem Snapshot_Durations_length (m : Metrics) :
    m.Snapshot.Durations.length = m.durations.length :=
  (sortSlice_perm _ m.durations).length_eq

theorem atomicAdd_one {v : Int} (h : isInt64 v) (hmax : v ≠ 2 ^ 63 - 1) :
    atomicAdd v 1 = v + 1 := by
  unfold atomicAdd
  apply wrap64_of_isInt64
  unfold isInt64 at h ⊢
  omega

theorem step_counts (m : Metrics) (k : ℕ) (c : Call)
    (hs : 0 ≤ m.successCount) (hf : 0 ≤ m.failureCount)
    (hk : m.successCount + m.failureCount = k)
    (hd : (m.durations.length : Int) = m.successCount) (hb : (k : Int) + 1 < 2 ^ 63) :
    0 ≤ (m.step c).successCount ∧ 0 ≤ (m.step c).failureCount ∧
    (m.step c).successCount + (m.step c).failureCount = (k + 1 : ℕ) ∧
    ((m.step c).durations.length : Int) = (m.step c).successCount := by
  cases c with
  | success d =>
    have e : atomicAdd m.successCount 1 = m.successCount + 1 :=
      atomicAdd_one (by unfold isInt64; omega) (by omega)
    simp only [Metrics.step, Metrics.RecordSuccess, e, List.length_append, List.length_singleton]
    push_cast
    omega
  | failure =>
    have e : atomicAdd m.failureCount 1 = m.failureCount + 1 :=
      atomicAdd_one (by unfold isInt64; omega) (by omega)
    simp only [Metrics.step, Metrics.RecordFailure, e]
    push_cast
    omega

theorem run_counts (m : Metrics) (k : ℕ) (cs : List Call)
    (hs : 0 ≤ m.successCount) (hf : 0 ≤ m.failureCount)
    (hk : m.successCount + m.failureCount = k)
    (hd : (m.durations.length : Int) = m.successCount)
    (hb : (k : Int) + cs.length < 2 ^ 63) :
    0 ≤ (m.run cs).successCount ∧ 0 ≤ (m.run cs).failureCount ∧
    (m.run cs).successCount + (m.run cs).failureCount = (k + cs.length : ℕ) ∧
    ((m.run cs).durations.length : Int) = (m.run cs).successCount := by
  unfold Metrics.run
  induction cs generalizing m k with
  | nil => exact ⟨hs, hf, by simpa using hk, hd⟩
  | cons c cs ih =>
    simp only [List.foldl_cons, List.length_cons] at hb ⊢
    push_cast at hb
    obtain ⟨h1, h2, h3, h4⟩ := step_counts m k c hs hf hk hd (by omega)
    have := ih (m.step c) (k + 1) h1 h2 h3 h4 (by push_cast; omega)
    rw [show k + (cs.length + 1) = k + 1 + cs.length by omega]
    exact this

/-! ## Lemmas: evaluation at concrete percentiles -/

theorem roundHalfEven_eq_of_abs_lt {y : ℚ} {m : ℤ} (h : |y - m| < 1 / 2) :
    roundHalfEven y = m := by
  have h1 := abs_roundHalfEven_sub_le y
  rw [abs_le] at h1
  rw [abs_lt] at h
  have h2 : (roundHalfEven y : ℚ) < m + 1 := by linarith
  have h3 : (m : ℚ) < roundHalfEven y + 1 := by linarith
  have h2' : roundHalfEven y < m + 1 := by exact_mod_cast h2
  have h3' : m < roundHalfEven y + 1 := by exact_mod_cast h3
  omega

theorem ulpExp_eq {x : ℚ} {k : ℤ} (hlo : 2 ^ k ≤ x) (hhi : x < 2 ^ (k + 1)) (hk : -1022 ≤ k) :
    ulpExp x = k - 52 := by
  have hx : 0 < x := lt_of_lt_of_le (two_zpow_pos k) hlo
  have h1 := le_log_of_le hx hlo
  have h2 := log_lt_of_lt hx hhi
  unfold ulpExp
  rw [abs_of_pos hx, max_eq_left (by omega)]
  omega

theorem roundQ_eq_of {x : ℚ} {k m : ℤ} (hlo : 2 ^ k ≤ x) (hhi : x < 2 ^ (k + 1))
    (hk : -1022 ≤ k) (hm : |x / 2 ^ (k - 52) - m| < 1 / 2) :
    roundQ x = m * 2 ^ (k - 52) := by
  unfold roundQ
  rw [ulpExp_eq hlo hhi hk, roundHalfEven_eq_of_abs_lt hm]

theorem roundQ_29 : roundQ (29 / 100) = 5224175567749775 * 2 ^ (-54 : ℤ) := by
  have := roundQ_eq_of (x := 29 / 100) (k := -2) (m := 5224175567749775)
    (by norm_num) (by norm_num) (by norm_num) (by norm_num [abs_lt])
  simpa using this

theorem roundQ_29_100 :
    roundQ (roundQ (29 / 100) * (100 : ℕ)) = 8162774324609023 * 2 ^ (-48 : ℤ) := by
  rw [roundQ_29]
  have := roundQ_eq_of (x := 5224175567749775 * 2 ^ (-54 : ℤ) * (100 : ℕ)) (k := 4)
    (m := 8162774324609023)
    (by norm_num) (by norm_num) (by norm_num) (by norm_num [abs_lt])
  simpa using this

theorem floor_29_100 : ⌊roundQ (roundQ (29 / 100) * (100 : ℕ))⌋ = 28 := by
  rw [roundQ_29_100, Int.floor_eq_iff]
  constructor <;> norm_num

theorem msUpTo_length (n : ℕ) : (msUpTo n).length = n := by simp [msUpTo]

theorem msUpTo_getElem? (n i : ℕ) (h : i < n) :
    (msUpTo n)[i]? = some (((i : Int) + 1) * Millisecond) := by
  simp [msUpTo, List.getElem?_map, List.getElem?_range h]

theorem Snapshot_msUpTo {k : Int} {m : Metrics} (hm : New k = some m) (n : ℕ) :
    (m.recordAll (msUpTo n)).Snapshot.Durations = msUpTo n := by
  simp only [Metrics.Snapshot, recordAll_durations, New_eq hm, List.nil_append]
  exact sortSlice_eq_of_sorted _ (sorted_msUpTo n)

theorem Percentile_fin_getElem (s : Snapshot) (q : ℚ) (hne : s.Durations ≠ [])
    (hlen : s.Durations.length < 2 ^ 53) (h0 : 0 ≤ q) (h100 : q ≤ 100) :
    ∃ i : ℕ, i < s.Durations.length ∧
      (i : ℤ) = min ⌊roundQ (roundQ (q / 100) * s.Durations.length)⌋ (s.Durations.length - 1)
      ∧ s.Percentile (Float64.fin q) = s.Durations[i]? := by
  obtain ⟨i, hi, h1, _, h3⟩ := Percentile_fin s q hne hlen h0 h100
  exact ⟨i, hi, h1, by rw [h3, List.getElem?_eq_getElem hi]; rfl⟩

theorem Percentile_29_msUpTo {k : Int} {m : Metrics} (hm : New k = some m) :
    (m.recordAll (msUpTo 100)).Snapshot.Percentile (Float64.fin 29) = some (29 * Millisecond) := by
  have hD := Snapshot_msUpTo hm 100
  obtain ⟨i, hi, h1, h2⟩ := Percentile_fin_getElem (m.recordAll (msUpTo 100)).Snapshot 29
    (by rw [hD]; decide) (by rw [hD, msUpTo_length]; norm_num) (by norm_num) (by norm_num)
  rw [hD, msUpTo_length] at h1 hi
  rw [floor_29_100] at h1
  have hi28 : i = 28 := by omega
  rw [h2, hD, hi28, msUpTo_getElem? 100 28 (by norm_num)]
  norm_num

theorem specIndex_29 : specIndex 29 100 = 29 := by
  unfold specIndex
  norm_num

theorem min_sub_min_abs_le (a b c : ℤ) (h : |a - b| ≤ 1) : |min a c - min b c| ≤ 1 := by
  rw [abs_le] at h ⊢
  constructor <;> omega

theorem Percentile_50_msUpTo {k : Int} {m : Metrics} (hm : New k = some m) (n : ℕ)
    (hn0 : 0 < n) (hn : 2 * n < 2 ^ 53) :
    (m.recordAll (msUpTo (2 * n))).Snapshot.Percentile (Float64.fin 50)
      = some (((n : Int) + 1) * Millisecond) := by
  have hD := Snapshot_msUpTo hm (2 * n)
  obtain ⟨i, hi, h1, h2⟩ := Percentile_fin_getElem (m.recordAll (msUpTo (2 * n))).Snapshot 50
    (by rw [hD]; intro h; have := congrArg List.length h; rw [msUpTo_length] at this
        simp at this; omega)
    (by rw [hD, msUpTo_length]; exact hn) (by norm_num) (by norm_num)
  rw [hD, msUpTo_length] at h1 hi
  have e1 : roundQ (50 / 100) = 1 / 2 := by
    have := roundQ_grid 1 (-1) (by norm_num) (by norm_num)
    norm_num at this ⊢
    exact this
  have e2 : roundQ (1 / 2 * ((2 * n : ℕ) : ℚ)) = (n : ℚ) := by
    have e : (1 / 2 * ((2 * n : ℕ) : ℚ)) = (n : ℚ) := by push_cast; ring
    rw [e]
    exact roundQ_natCast n (by omega)
  rw [e1, e2, Int.floor_natCast] at h1
  have hin : i = n := by push_cast at h1; omega
  rw [h2, hD, hin, msUpTo_getElem? (2 * n) n (by omega)]

/-! ## The claims -/

/-- Claim C1, refuted as stated. The hundred durations 1ms, ..., 100ms recorded on a
fresh collector give a snapshot whose list is sorted and has 100 entries; on it
`Percentile(29)` returns 29ms, the element at index 28, while the index
`min(floor(29/100 * 100), 99)` of the claim is 29, whose element is 30ms: in float64,
`29/100` rounds below 0.29 and its product with 100 rounds below 29. -/
theorem Percentile_29_counterexample :
    (New 100).map (fun m => (m.recordAll (msUpTo 100)).Snapshot.Durations)
      = some (msUpTo 100) ∧
    (msUpTo 100).Sorted (· ≤ ·) ∧ (msUpTo 100).length = 100 ∧
    (New 100).map (fun m => (m.recordAll (msUpTo 100)).Snapshot.Percentile (Float64.fin 29))
      = some (some (29 * Millisecond)) ∧
    specIndex 29 100 = 29 ∧
    (msUpTo 100)[(specIndex 29 100).toNat]? = some (30 * Millisecond) := by
  have hn : New 100 = some (Metrics.mk 0 0 0 []) := by decide
  rw [hn]
  simp only [Option.map_some']
  refine ⟨by rw [Snapshot_msUpTo hn], sorted_msUpTo 100, msUpTo_length 100,
    by rw [Percentile_29_msUpTo hn], specIndex_29, ?_⟩
  rw [specIndex_29]
  have := msUpTo_getElem? 100 29 (by norm_num)
  simpa using this

/-- Claim C1, as amended. For every snapshot with a non-empty duration list of at most
`2^52` entries (sorted or not) and every `p` with `0 ≤ p ≤ 100`, `Percentile(p)`
returns an element of the list, with no interpolation: the one at index
`min(floor(fl(fl(p/100) * len)), len - 1)`, where `fl` is the float64 rounding the
division and the multiplication incur. This index is at most one position away from
`min(floor(p/100 * len), len - 1)` and equals it whenever neither operation rounds.
In particular, for the durations 1ms, ..., 100ms recorded with `RecordSuccess` on a
fresh collector and read through `Snapshot`, `Percentile(50)` is the value at index
50, which is 51ms. -/
theorem Percentile_index_spec :
    (∀ (s : Snapshot) (q : ℚ), s.Durations ≠ [] → s.Durations.length ≤ 2 ^ 52 →
      0 ≤ q → q ≤ 100 →
      ∃ i : ℕ, ∃ hi : i < s.Durations.length,
        s.percentileIndex (Float64.fin q) = some (i : ℤ) ∧
        s.Percentile (Float64.fin q) = some (s.Durations.get ⟨i, hi⟩) ∧
        (i : ℤ) = min ⌊roundQ (roundQ (q / 100) * s.Durations.length)⌋
                    (s.Durations.length - 1) ∧
        |(i : ℤ) - specIndex q s.Durations.length| ≤ 1 ∧
        (roundQ (q / 100) = q / 100 →
          roundQ (q / 100 * s.Durations.length) = q / 100 * s.Durations.length →
          (i : ℤ) = specIndex q s.Durations.length)) ∧
    (∀ (n : Int) (m : Metrics), New n = some m →
      (m.recordAll (msUpTo 100)).Snapshot.Percentile (Float64.fin 50)
        = some (51 * Millisecond) ∧
      (m.recordAll (msUpTo 100)).Snapshot.Durations[50]? = some (51 * Millisecond)) := by
  constructor
  · intro s q hne hlen h0 h100
    have hlen53 : s.Durations.length < 2 ^ 53 := lt_of_le_of_lt hlen (by norm_num)
    obtain ⟨i, hi, h1, h2, h3⟩ := Percentile_fin s q hne hlen53 h0 h100
    refine ⟨i, hi, h2, h3, h1, ?_, ?_⟩
    · rw [h1]
      unfold specIndex
      apply min_sub_min_abs_le
      apply abs_floor_sub_floor_le
      exact lt_of_le_of_lt (abs_float_sub_exact_le h0 h100 hlen) (by norm_num)
    · intro e1 e2
      rw [h1, e1, e2]
      rfl
  · intro n m hm
    constructor
    · have := Percentile_50_msUpTo hm 50 (by norm_num) (by norm_num)
      norm_num at this ⊢
      exact this
    · rw [Snapshot_msUpTo hm, msUpTo_getElem? 100 50 (by norm_num)]
      norm_num

theorem Percentile_index_spec_witness :
    (∃ i : ℕ, ∃ hi : i < (Snapshot.mk 3 0 600 [100, 200, 300]).Durations.length,
      (Snapshot.mk 3 0 600 [100, 200, 300]).percentileIndex (Float64.fin 50) = some (i : ℤ) ∧
      (Snapshot.mk 3 0 600 [100, 200, 300]).Percentile (Float64.fin 50)
        = some ((Snapshot.mk 3 0 600 [100, 200, 300]).Durations.get ⟨i, hi⟩) ∧
      (i : ℤ) = min ⌊roundQ (roundQ (50 / 100)
          * (Snapshot.mk 3 0 600 [100, 200, 300]).Durations.length)⌋
        ((Snapshot.mk 3 0 600 [100, 200, 300]).Durations.length - 1) ∧
      |(i : ℤ) - specIndex 50 (Snapshot.mk 3 0 600 [100, 200, 300]).Durations.length| ≤ 1 ∧
      (roundQ (50 / 100) = 50 / 100 →
        roundQ (50 / 100 * (Snapshot.mk 3 0 600 [100, 200, 300]).Durations.length)
          = 50 / 100 * (Snapshot.mk 3 0 600 [100, 200, 300]).Durations.length →
        (i : ℤ) = specIndex 50 (Snapshot.mk 3 0 600 [100, 200, 300]).Durations.length)) ∧
    New 100 = some (Metrics.mk 0 0 0 []) ∧
    ((Metrics.mk 0 0 0 []).recordAll (msUpTo 100)).Snapshot.Percentile (Float64.fin 50)
      = some (51 * Millisecond) :=
  ⟨Percentile_index_spec.1 (Snapshot.mk 3 0 600 [100, 200, 300]) 50 (by decide) (by decide)
      (by norm_num) (by norm_num),
    by decide,
    (Percentile_index_spec.2 100 (Metrics.mk 0 0 0 []) (by decide)).1⟩

/-- Claim C2. For every snapshot with a non-empty, ascending duration list (of at most
`2^52` entries) and every `p`, `q` with `0 ≤ p ≤ q ≤ 100`, both `Percentile(p)` and
`Percentile(q)` return a value and the first is at most the second. -/
theorem Percentile_mono (s : Snapshot) (p q : ℚ) (hne : s.Durations ≠ [])
    (hsorted : s.Durations.Sorted (· ≤ ·)) (hlen : s.Durations.length ≤ 2 ^ 52)
    (h0 : 0 ≤ p) (hpq : p ≤ q) (h100 : q ≤ 100) :
    ∃ a b : Int, s.Percentile (Float64.fin p) = some a ∧
      s.Percentile (Float64.fin q) = some b ∧ a ≤ b := by
  have hlen53 : s.Durations.length < 2 ^ 53 := lt_of_le_of_lt hlen (by norm_num)
  obtain ⟨i, hi, hi1, _, hi3⟩ := Percentile_fin s p hne hlen53 h0 (hpq.trans h100)
  obtain ⟨j, hj, hj1, _, hj3⟩ := Percentile_fin s q hne hlen53 (h0.trans hpq) h100
  refine ⟨_, _, hi3, hj3, ?_⟩
  have hx : p / 100 ≤ q / 100 := div_le_div_of_nonneg_right hpq (by norm_num)
  have ha := roundQ_mono (by positivity) hx
  have ha0 : 0 ≤ roundQ (p / 100) := roundQ_nonneg (by positivity)
  have hy : roundQ (p / 100) * s.Durations.length ≤ roundQ (q / 100) * s.Durations.length :=
    mul_le_mul_of_nonneg_right ha (by positivity)
  have hr := roundQ_mono (mul_nonneg ha0 (by positivity)) hy
  have hfl := Int.floor_mono hr
  have hij : i ≤ j := by omega
  exact hsorted.rel_get_of_le (a := ⟨i, hi⟩) (b := ⟨j, hj⟩) hij

theorem Percentile_mono_witness :
    (Snapshot.mk 3 0 600 [100, 200, 300]).Durations ≠ [] ∧
    (Snapshot.mk 3 0 600 [100, 200, 300]).Durations.Sorted (· ≤ ·) ∧
    ∃ a b : Int, (Snapshot.mk 3 0 600 [100, 200, 300]).Percentile (Float64.fin 29) = some a ∧
      (Snapshot.mk 3 0 600 [100, 200, 300]).Percentile (Float64.fin 90) = some b ∧ a ≤ b :=
  ⟨by decide, by decide,
    Percentile_mono (Snapshot.mk 3 0 600 [100, 200, 300]) 29 90 (by decide) (by decide)
      (by decide) (by norm_num) (by norm_num) (by norm_num)⟩

/-- Claim C3. For every non-empty sequence of durations (at most `2^52` of them)
recorded with `RecordSuccess` on a fresh collector, in any order, `Percentile(100)` of
the snapshot taken afterwards is the maximum of the recorded durations: one of them,
and at least each of them. -/
theorem Percentile_100_max (n : Int) (m : Metrics) (ds : List Int) (hm : New n = some m)
    (hne : ds ≠ []) (hlen : ds.length ≤ 2 ^ 52) :
    ∃ d : Int, (m.recordAll ds).Snapshot.Percentile (Float64.fin 100) = some d ∧
      d ∈ ds ∧ ∀ x ∈ ds, x ≤ d := by
  have hD : (m.recordAll ds).Snapshot.Durations = sortSlice (fun a b => decide (a < b)) ds := by
    simp only [Metrics.Snapshot, recordAll_durations, New_eq hm, List.nil_append]
  have hperm := sortSlice_perm (fun a b : Int => decide (a < b)) ds
  have hsorted := sortSlice_sorted ds
  have hlenD : (m.recordAll ds).Snapshot.Durations.length = ds.length := by
    rw [hD]; exact hperm.length_eq
  have hlen53 : ds.length < 2 ^ 53 := lt_of_le_of_lt hlen (by norm_num)
  have hne' : (m.recordAll ds).Snapshot.Durations ≠ [] := by
    intro h
    rw [h] at hlenD
    exact hne (List.length_eq_zero.mp hlenD.symm)
  obtain ⟨i, hi, hi1, _, hi3⟩ := Percentile_fin (m.recordAll ds).Snapshot 100 hne'
    (by rw [hlenD]; exact hlen53) (by norm_num) (by norm_num)
  have e1 : roundQ (100 / 100) = 1 := by norm_num [roundQ_one]
  rw [e1, one_mul, hlenD, roundQ_natCast _ hlen53, Int.floor_natCast] at hi1
  have hpermD : (m.recordAll ds).Snapshot.Durations.Perm ds := by rw [hD]; exact hperm
  have hs : (m.recordAll ds).Snapshot.Durations.Sorted (· ≤ ·) := by rw [hD]; exact hsorted
  refine ⟨_, hi3, hpermD.subset (List.get_mem _ _ _), ?_⟩
  intro x hx
  obtain ⟨j, hj⟩ := List.get_of_mem (hpermD.symm.subset hx)
  rw [← hj]
  have hjl := j.isLt
  exact hs.rel_get_of_le (a := j) (b := ⟨i, hi⟩) (by
    show j.val ≤ i
    omega)

theorem Percentile_100_max_witness :
    New 5 = some (Metrics.mk 0 0 0 []) ∧
    ∃ d : Int, ((Metrics.mk 0 0 0 []).recordAll [300, 100, 500, 200, 400]).Snapshot.Percentile
        (Float64.fin 100) = some d ∧
      d ∈ [300, 100, 500, 200, 400] ∧ ∀ x ∈ [300, 100, 500, 200, 400], x ≤ d :=
  ⟨by decide,
    Percentile_100_max 5 (Metrics.mk 0 0 0 []) [300, 100, 500, 200, 400] (by decide)
      (by decide) (by decide)⟩

/-- Claim C4. On a snapshot whose duration list is empty, `Percentile(p)` returns the
zero duration for every float64 `p`, the infinities and NaN included: it neither fails
nor indexes the list. -/
theorem Percentile_empty (s : Snapshot) (p : Float64) (h : s.Durations = []) :
    s.Percentile p = some 0 := by
  unfold Snapshot.Percentile
  simp [h]

theorem Percentile_empty_witness :
    (Snapshot.mk 0 0 0 []).Durations = [] ∧
      (Snapshot.mk 0 0 0 []).Percentile Float64.nan = some 0 :=
  ⟨rfl, Percentile_empty (Snapshot.mk 0 0 0 []) Float64.nan rfl⟩

/-- Claim C5, refuted as stated. With the durations 1ms, ..., 1000ms recorded on a fresh
collector, `Percentile(50)` of the snapshot is not 500ms. -/
theorem median_of_1000_counterexample :
    (New 1000).map (fun m =>
        (m.recordAll (msUpTo 1000)).Snapshot.Percentile (Float64.fin 50))
      ≠ some (some (500 * Millisecond)) := by
  have hn : New 1000 = some (Metrics.mk 0 0 0 []) := by decide
  have h := Percentile_50_msUpTo hn 500 (by norm_num) (by norm_num)
  rw [hn]
  simp only [Option.map_some']
  rw [show 2 * 500 = 1000 by norm_num] at h
  rw [h]
  decide

/-- Claim C5, as amended. With the durations 1ms, ..., 1000ms recorded with
`RecordSuccess` on a fresh collector, `Percentile(50)` of the snapshot returns 501ms,
the element at index `floor(0.5 * 1000) = 500`. -/
theorem Percentile_50_of_1000 (n : Int) (m : Metrics) (hm : New n = some m) :
    (m.recordAll (msUpTo 1000)).Snapshot.Percentile (Float64.fin 50)
        = some (501 * Millisecond) ∧
      (m.recordAll (msUpTo 1000)).Snapshot.Durations[500]? = some (501 * Millisecond) := by
  constructor
  · have h := Percentile_50_msUpTo hm 500 (by norm_num) (by norm_num)
    norm_num at h ⊢
    exact h
  · rw [Snapshot_msUpTo hm, msUpTo_getElem? 1000 500 (by norm_num)]
    norm_num

theorem Percentile_50_of_1000_witness :
    New 1000 = some (Metrics.mk 0 0 0 []) ∧
    ((Metrics.mk 0 0 0 []).recordAll (msUpTo 1000)).Snapshot.Percentile (Float64.fin 50)
      = some (501 * Millisecond) :=
  ⟨by decide, (Percentile_50_of_1000 1000 (Metrics.mk 0 0 0 []) (by decide)).1⟩

/-- Claim C6. For every snapshot, `AverageTime()` returns the zero duration when
`SuccessCount = 0`, whatever `TotalTime` is; returns `TotalTime / SuccessCount`, the
integer quotient truncated toward zero, when `SuccessCount > 0` (`TotalTime` being an
int64); and in no case divides by zero. -/
theorem AverageTime_spec (s : Snapshot) :
    (s.SuccessCount = 0 → s.AverageTime = some 0) ∧
    (0 < s.SuccessCount → isInt64 s.TotalTime →
      s.AverageTime = some (Int.tdiv s.TotalTime s.SuccessCount)) ∧
    s.AverageTime ≠ none := by
  refine ⟨?_, ?_, ?_⟩
  · intro h
    simp [Snapshot.AverageTime, h]
  · intro hpos hT
    have hne : s.SuccessCount ≠ 0 := by omega
    simp only [Snapshot.AverageTime, div64, if_neg hne]
    congr 1
    apply wrap64_of_isInt64
    unfold isInt64 at hT ⊢
    have h1 : (Int.tdiv s.TotalTime s.SuccessCount).natAbs ≤ s.TotalTime.natAbs := by
      rw [Int.natAbs_tdiv]
      exact Nat.div_le_self _ _
    rcases le_or_lt 0 s.TotalTime with hs | hs
    · have := Int.tdiv_nonneg hs hpos.le
      omega
    · have h2 := Int.tdiv_nonneg (show 0 ≤ -s.TotalTime by omega) hpos.le
      rw [Int.neg_tdiv] at h2
      omega
  · unfold Snapshot.AverageTime div64
    split_ifs <;> simp

theorem AverageTime_spec_witness :
    (Snapshot.mk 0 3 77 []).AverageTime = some 0 ∧
    (Snapshot.mk 4 0 400000000 []).AverageTime = some 100000000 ∧
    (Snapshot.mk 2 0 (-7) []).AverageTime = some (-3) :=
  ⟨(AverageTime_spec (Snapshot.mk 0 3 77 [])).1 rfl,
   (AverageTime_spec (Snapshot.mk 4 0 400000000 [])).2.1 (by decide) (by decide),
   (AverageTime_spec (Snapshot.mk 2 0 (-7) [])).2.1 (by decide) (by decide)⟩

/-- Claim C7. For every collector and every sequence of `RecordSuccess` calls, whatever
the order of the durations, the duration list of the snapshot is sorted ascending:
each element is at least the one before it, and at least every earlier one. -/
theorem Snapshot_Durations_sorted (m : Metrics) (ds : List Int) :
    (m.recordAll ds).Snapshot.Durations.Sorted (· ≤ ·) ∧
      (m.recordAll ds).Snapshot.Durations.Chain' (· ≤ ·) :=
  ⟨sortSlice_sorted _, List.chain'_iff_pairwise.mpr (sortSlice_sorted _)⟩

/-- Claim C8, refuted as stated. Two calls `RecordSuccess(2^62)` on a fresh collector
leave the cumulative total at `-2^63`, not at the sum `2^62 + 2^62` of the recorded
durations: the int64 addition of the second call wraps around instead of increasing
the total by `2^62`. -/
theorem RecordSuccess_total_counterexample :
    isInt64 (2 ^ 62) ∧
    (New 2).map (fun m => (m.recordAll [2 ^ 62, 2 ^ 62]).Snapshot.TotalTime)
      = some (-2 ^ 63) ∧
    (New 2).map (fun m => (m.recordAll [2 ^ 62, 2 ^ 62]).Snapshot.TotalTime)
      ≠ some (2 ^ 62 + 2 ^ 62) ∧
    ((Metrics.mk 1 0 (2 ^ 62) [2 ^ 62]).RecordSuccess (2 ^ 62)).totalTime
      ≠ (Metrics.mk 1 0 (2 ^ 62) [2 ^ 62]).totalTime + 2 ^ 62 := by
  decide

/-- Claim C8, as amended. For every collector state and every duration `d`,
`RecordSuccess(d)` adds 1 to the success counter and `d` to the cumulative total in
int64 arithmetic, that is exactly 1 when the counter is below the int64 maximum and
exactly `d` when the new total lies in the int64 range; it appends `d` to the duration
collection, whose length grows by 1, and leaves the failure counter unchanged. After
recording `d1, ..., dn` on a fresh collector the snapshot has `n` durations, a
`SuccessCount` of `n` (for `n < 2^63`), and a `TotalTime` of `d1 + ... + dn` reduced to
int64, which is that sum whenever the sum lies in the int64 range. -/
theorem RecordSuccess_spec :
    (∀ (m : Metrics) (d : Int),
      (m.RecordSuccess d).successCount = wrap64 (m.successCount + 1) ∧
      (isInt64 m.successCount → m.successCount ≠ 2 ^ 63 - 1 →
        (m.RecordSuccess d).successCount = m.successCount + 1) ∧
      (m.RecordSuccess d).totalTime = wrap64 (m.totalTime + d) ∧
      (isInt64 (m.totalTime + d) → (m.RecordSuccess d).totalTime = m.totalTime + d) ∧
      (m.RecordSuccess d).durations = m.durations ++ [d] ∧
      (m.RecordSuccess d).durations.length = m.durations.length + 1 ∧
      (m.RecordSuccess d).failureCount = m.failureCount) ∧
    (∀ (n : Int) (m : Metrics) (ds : List Int), New n = some m →
      (m.recordAll ds).Snapshot.Durations.length = ds.length ∧
      (m.recordAll ds).Snapshot.TotalTime = wrap64 ds.sum ∧
      (isInt64 ds.sum → (m.recordAll ds).Snapshot.TotalTime = ds.sum) ∧
      (m.recordAll ds).Snapshot.SuccessCount = wrap64 ds.length ∧
      ((ds.length : Int) < 2 ^ 63 → (m.recordAll ds).Snapshot.SuccessCount = ds.length)) := by
  constructor
  · intro m d
    refine ⟨rfl, fun h hmax => atomicAdd_one h hmax, rfl, fun h => wrap64_of_isInt64 h, rfl,
      by simp [Metrics.RecordSuccess], rfl⟩
  · intro n m ds hm
    have hm0 := New_eq hm
    have hI := recordAll_isInt64 m ds (by rw [hm0]; decide) (by rw [hm0]; decide)
    have hT : (m.recordAll ds).totalTime = wrap64 ds.sum := by
      have := recordAll_totalTime m ds
      rw [wrap64_of_isInt64 hI.2] at this
      rw [this, hm0]; simp
    have hS : (m.recordAll ds).successCount = wrap64 ds.length := by
      have := recordAll_successCount m ds
      rw [wrap64_of_isInt64 hI.1] at this
      rw [this, hm0]; simp
    refine ⟨?_, hT, ?_, hS, ?_⟩
    · rw [Snapshot_Durations_length, recordAll_durations, hm0]; simp
    · intro h
      show (m.recordAll ds).totalTime = ds.sum
      rw [hT, wrap64_of_isInt64 h]
    · intro h
      show (m.recordAll ds).successCount = ds.length
      rw [hS]
      apply wrap64_of_isInt64
      unfold isInt64
      omega

theorem RecordSuccess_spec_witness :
    ((Metrics.mk 2 1 300 [100, 200]).RecordSuccess 50).successCount = 3 ∧
    ((Metrics.mk 2 1 300 [100, 200]).RecordSuccess 50).totalTime = 350 ∧
    (New 10).map (fun m => (m.recordAll [100, 200]).Snapshot.TotalTime) = some 300 ∧
    (New 10).map (fun m => (m.recordAll [100, 200]).Snapshot.SuccessCount) = some 2 := by
  have h := RecordSuccess_spec
  have hn : New 10 = some (Metrics.mk 0 0 0 []) := by decide
  refine ⟨(h.1 (Metrics.mk 2 1 300 [100, 200]) 50).2.1 (by decide) (by decide),
    (h.1 (Metrics.mk 2 1 300 [100, 200]) 50).2.2.2.1 (by decide), ?_, ?_⟩
  · rw [hn]
    exact congrArg some ((h.2 10 _ [100, 200] hn).2.2.1 (by decide))
  · rw [hn]
    exact congrArg some ((h.2 10 _ [100, 200] hn).2.2.2.2 (by decide))

/-- Claim C9. For every collector state, `RecordFailure()` leaves the success counter,
the cumulative total and the duration collection unchanged, and increases the failure
counter by exactly 1 (the counter being an int64 below its maximum `2^63 - 1`, a value
that takes `2^63` calls to reach). -/
theorem RecordFailure_spec (m : Metrics) :
    (isInt64 m.failureCount → m.failureCount ≠ 2 ^ 63 - 1 →
      (m.RecordFailure).failureCount = m.failureCount + 1) ∧
    (m.RecordFailure).successCount = m.successCount ∧
    (m.RecordFailure).totalTime = m.totalTime ∧
    (m.RecordFailure).durations = m.durations :=
  ⟨fun h hmax => atomicAdd_one h hmax, rfl, rfl, rfl⟩

theorem RecordFailure_spec_witness :
    ((Metrics.mk 2 3 300 [100, 200]).RecordFailure).failureCount = 3 + 1 :=
  (RecordFailure_spec (Metrics.mk 2 3 300 [100, 200])).1 (by decide) (by decide)

/-- Claim C10. The two counts agree with the calls made: on a fresh collector the
success and failure counters are non-negative and add up to 0, and the duration
collection is as long as the success counter says; each `RecordSuccess` or
`RecordFailure` keeps these facts with one more call counted; hence after every
sequence of calls (fewer than `2^63`) on a fresh collector the snapshot has
`SuccessCount + FailureCount` equal to the number of calls and
`len(Durations) = SuccessCount`. -/
theorem counts_invariant :
    (∀ (n : Int) (m : Metrics), New n = some m →
      0 ≤ m.successCount ∧ 0 ≤ m.failureCount ∧
      m.successCount + m.failureCount = 0 ∧ (m.durations.length : Int) = m.successCount) ∧
    (∀ (m : Metrics) (k : ℕ) (c : Call), (k : Int) + 1 < 2 ^ 63 →
      0 ≤ m.successCount ∧ 0 ≤ m.failureCount ∧
        m.successCount + m.failureCount = k ∧ (m.durations.length : Int) = m.successCount →
      0 ≤ (m.step c).successCount ∧ 0 ≤ (m.step c).failureCount ∧
        (m.step c).successCount + (m.step c).failureCount = (k + 1 : ℕ) ∧
        ((m.step c).durations.length : Int) = (m.step c).successCount) ∧
    (∀ (n : Int) (m : Metrics) (cs : List Call), New n = some m → (cs.length : Int) < 2 ^ 63 →
      (m.run cs).Snapshot.SuccessCount + (m.run cs).Snapshot.FailureCount = cs.length ∧
      ((m.run cs).Snapshot.Durations.length : Int) = (m.run cs).Snapshot.SuccessCount) := by
  refine ⟨?_, ?_, ?_⟩
  · intro n m hm
    rw [New_eq hm]
    exact ⟨le_refl _, le_refl _, rfl, rfl⟩
  · intro m k c hb hinv
    exact step_counts m k c hinv.1 hinv.2.1 hinv.2.2.1 hinv.2.2.2 hb
  · intro n m cs hm hb
    have hm0 := New_eq hm
    have := run_counts m 0 cs (by rw [hm0]) (by rw [hm0]) (by rw [hm0]; rfl) (by rw [hm0]; rfl)
      (by push_cast; omega)
    rw [Snapshot_Durations_length]
    refine ⟨?_, this.2.2.2⟩
    have h3 := this.2.2.1
    simp only [zero_add] at h3
    exact h3

theorem counts_invariant_witness :
    (New 4).map (fun m =>
      (m.run [Call.success 300, Call.failure, Call.success 100]).Snapshot.SuccessCount
        + (m.run [Call.success 300, Call.failure, Call.success 100]).Snapshot.FailureCount)
      = some 3 := by
  have hn : New 4 = some (Metrics.mk 0 0 0 []) := by decide
  rw [hn]
  exact congrArg some
    (counts_invariant.2.2 4 _ [Call.success 300, Call.failure, Call.success 100] hn
      (by decide)).1

/-! ## Lemmas: configuration -/

theorem validMethodsAt_iff (m : HTTPMethod) :
    validMethodsAt m = true ↔
      m ∈ ["GET", "POST", "PUT", "PATCH", "DELETE", "HEAD", "OPTIONS", "CONNECT", "TRACE"] := by
  unfold validMethodsAt validMethods
  simp only [List.lookup, List.mem_cons, List.mem_singleton, List.not_mem_nil, or_false]
  constructor
  · intro h
    by_contra hne
    simp only [not_or] at hne
    obtain ⟨h1, h2, h3, h4, h5, h6, h7, h8, h9⟩ := hne
    have b1 : (m == "GET") = false := beq_eq_false_iff_ne.mpr h1
    have b2 : (m == "POST") = false := beq_eq_false_iff_ne.mpr h2
    have b3 : (m == "PUT") = false := beq_eq_false_iff_ne.mpr h3
    have b4 : (m == "PATCH") = false := beq_eq_false_iff_ne.mpr h4
    have b5 : (m == "DELETE") = false := beq_eq_false_iff_ne.mpr h5
    have b6 : (m == "HEAD") = false := beq_eq_false_iff_ne.mpr h6
    have b7 : (m == "OPTIONS") = false := beq_eq_false_iff_ne.mpr h7
    have b8 : (m == "CONNECT") = false := beq_eq_false_iff_ne.mpr h8
    have b9 : (m == "TRACE") = false := beq_eq_false_iff_ne.mpr h9
    rw [b1, b2, b3, b4, b5, b6, b7, b8, b9] at h
    simp at h
  · intro h
    rcases h with h | h | h | h | h | h | h | h | h <;> subst h <;> decide

theorem cutChars_append (sep : Char) (a b : List Char) (h : sep ∉ a) :
    cutChars sep (a ++ sep :: b) = some (a, b) := by
  induction a with
  | nil => simp [cutChars]
  | cons c cs ih =>
    have hc : c ≠ sep := fun e => h (by simp [e])
    have hcs : sep ∉ cs := fun e => h (List.mem_cons_of_mem _ e)
    simp [cutChars, hc, ih hcs]

theorem cutChars_none (sep : Char) (l : List Char) (h : sep ∉ l) : cutChars sep l = none := by
  induction l with
  | nil => rfl
  | cons c cs ih =>
    have hc : c ≠ sep := fun e => h (by simp [e])
    have hcs : sep ∉ cs := fun e => h (List.mem_cons_of_mem _ e)
    simp [cutChars, hc, ih hcs]

theorem cutChars_some (sep : Char) (l a b : List Char) (h : cutChars sep l = some (a, b)) :
    l = a ++ sep :: b ∧ sep ∉ a := by
  induction l generalizing a with
  | nil => simp [cutChars] at h
  | cons c cs ih =>
    unfold cutChars at h
    by_cases hc : c = sep
    · rw [if_pos hc] at h
      simp only [Option.some.injEq, Prod.mk.injEq] at h
      obtain ⟨rfl, rfl⟩ := h
      simp [hc]
    · rw [if_neg hc] at h
      cases hrec : cutChars sep cs with
      | none => rw [hrec] at h; simp at h
      | some p =>
        obtain ⟨a', b'⟩ := p
        rw [hrec] at h
        simp only [Option.some.injEq, Prod.mk.injEq] at h
        obtain ⟨rfl, rfl⟩ := h
        obtain ⟨h1, h2⟩ := ih a' hrec
        refine ⟨by rw [h1]; rfl, ?_⟩
        intro hmem
        rcases List.mem_cons.mp hmem with e | e
        · exact hc e.symm
        · exact h2 e

theorem exists_first_sep (sep : Char) (l : List Char) (h : sep ∈ l) :
    ∃ a b, l = a ++ sep :: b ∧ sep ∉ a := by
  induction l with
  | nil => simp at h
  | cons c cs ih =>
    by_cases hc : c = sep
    · exact ⟨[], cs, by simp [hc], by simp⟩
    · have hm : sep ∈ cs := by
        rcases List.mem_cons.mp h with e | e
        · exact absurd e.symm hc
        · exact e
      obtain ⟨a, b, h1, h2⟩ := ih hm
      refine ⟨c :: a, b, by simp [h1], ?_⟩
      intro hmem
      rcases List.mem_cons.mp hmem with e | e
      · exact hc e.symm
      · exact h2 e

theorem mk_eq_empty_iff (l : List Char) : String.mk l = "" ↔ l = [] := by
  constructor
  · intro h
    have := congrArg String.data h
    simpa using this
  · rintro rfl
    rfl

/-! ## Lemmas: calls, atomic steps and schedules -/

theorem step_eq_foldl_atoms (m : Metrics) (c : Call) :
    m.step c = c.atoms.foldl Metrics.apply m := by
  cases c <;> rfl

theorem run_eq_foldl_atoms (m : Metrics) (cs : List Call) :
    m.run cs = (cs.map Call.atoms).flatten.foldl Metrics.apply m := by
  unfold Metrics.run
  induction cs generalizing m with
  | nil => rfl
  | cons c cs ih =>
    simp only [List.foldl_cons, List.map_cons, List.flatten_cons, List.foldl_append]
    rw [ih, step_eq_foldl_atoms]

theorem sendRequest_eq_step (m : Metrics) (o : Outcome) :
    sendRequest m o = m.step (sendRequestCall o) := by
  cases o with
  | buildError => rfl
  | transportError => rfl
  | response st d =>
    simp only [sendRequest, sendRequestCall]
    split_ifs <;> rfl

theorem workerLoop_eq_run (cd : Nat → Bool) (oc : Nat → Outcome) (k i : Nat) (m : Metrics) :
    workerLoop cd oc k i m = m.run (workerLoopCalls cd oc k i) := by
  induction k generalizing i m with
  | zero => rfl
  | succ k ih =>
    unfold workerLoop workerLoopCalls
    split_ifs
    · rfl
    · rw [ih, sendRequest_eq_step]
      rfl

theorem worker_eq_run (cd : Nat → Bool) (oc : Nat → Outcome) (n : Int) (m : Metrics) :
    worker cd oc n m = m.run (workerCalls cd oc n) :=
  workerLoop_eq_run cd oc n.toNat 0 m

theorem copySlice_replicate (l : List Int) :
    copySlice (List.replicate l.length 0) l = l := by
  simp [copySlice]

theorem SnapshotCall_fst (m : Metrics) : m.SnapshotCall.1 = m.Snapshot := by
  simp only [Metrics.SnapshotCall, Metrics.Snapshot, copySlice_replicate]

theorem SnapshotCall_snd (m : Metrics) : m.SnapshotCall.2 = m := rfl

theorem foldl_apply_failureCount (tr : List Atom) (m : Metrics) :
    wrap64 (tr.foldl Metrics.apply m).failureCount
      = wrap64 (m.failureCount + tr.count Atom.addFailure) := by
  induction tr generalizing m with
  | nil => simp
  | cons a tr ih =>
    simp only [List.foldl_cons]
    rw [ih]
    cases a with
    | addFailure =>
      simp only [Metrics.apply, atomicAdd, wrap64_add_left, List.count_cons_self]
      congr 1; push_cast; ring
    | addSuccess => simp [Metrics.apply, List.count_cons]
    | addTotal d => simp [Metrics.apply, List.count_cons]
    | appendDuration d => simp [Metrics.apply, List.count_cons]
    | snapshot => simp [Metrics.apply, List.count_cons, SnapshotCall_snd]

theorem foldl_apply_successCount (tr : List Atom) (m : Metrics) :
    wrap64 (tr.foldl Metrics.apply m).successCount
      = wrap64 (m.successCount + tr.count Atom.addSuccess) := by
  induction tr generalizing m with
  | nil => simp
  | cons a tr ih =>
    simp only [List.foldl_cons]
    rw [ih]
    cases a with
    | addSuccess =>
      simp only [Metrics.apply, atomicAdd, wrap64_add_left, List.count_cons_self]
      congr 1; push_cast; ring
    | addFailure => simp [Metrics.apply, List.count_cons]
    | addTotal d => simp [Metrics.apply, List.count_cons]
    | appendDuration d => simp [Metrics.apply, List.count_cons]
    | snapshot => simp [Metrics.apply, List.count_cons, SnapshotCall_snd]

theorem foldl_apply_totalTime (tr : List Atom) (m : Metrics) :
    wrap64 (tr.foldl Metrics.apply m).totalTime
      = wrap64 (m.totalTime + (tr.map Atom.totalDelta).sum) := by
  induction tr generalizing m with
  | nil => simp
  | cons a tr ih =>
    simp only [List.foldl_cons, List.map_cons, List.sum_cons]
    rw [ih]
    cases a with
    | addTotal d =>
      simp only [Metrics.apply, atomicAdd, wrap64_add_left, Atom.totalDelta]
      congr 1; ring
    | addFailure => simp [Metrics.apply, Atom.totalDelta]
    | addSuccess => simp [Metrics.apply, Atom.totalDelta]
    | appendDuration d => simp [Metrics.apply, Atom.totalDelta]
    | snapshot => simp [Metrics.apply, Atom.totalDelta, SnapshotCall_snd]

theorem foldl_apply_durations (tr : List Atom) (m : Metrics) :
    (tr.foldl Metrics.apply m).durations = m.durations ++ tr.filterMap Atom.appended := by
  induction tr generalizing m with
  | nil => simp
  | cons a tr ih =>
    simp only [List.foldl_cons]
    rw [ih]
    cases a <;> simp [Metrics.apply, Atom.appended, SnapshotCall_snd]

theorem foldl_apply_isInt64 (tr : List Atom) (m : Metrics)
    (h : isInt64 m.successCount ∧ isInt64 m.failureCount ∧ isInt64 m.totalTime) :
    isInt64 (tr.foldl Metrics.apply m).successCount ∧
      isInt64 (tr.foldl Metrics.apply m).failureCount ∧
      isInt64 (tr.foldl Metrics.apply m).totalTime := by
  induction tr generalizing m with
  | nil => exact h
  | cons a tr ih =>
    simp only [List.foldl_cons]
    apply ih
    cases a with
    | addSuccess => exact ⟨isInt64_wrap64 _, h.2.1, h.2.2⟩
    | addTotal d => exact ⟨h.1, h.2.1, isInt64_wrap64 _⟩
    | appendDuration d => exact h
    | addFailure => exact ⟨h.1, isInt64_wrap64 _, h.2.2⟩
    | snapshot => exact h

theorem foldl_apply_eq (tr : List Atom) (m : Metrics)
    (h : isInt64 m.successCount ∧ isInt64 m.failureCount ∧ isInt64 m.totalTime) :
    tr.foldl Metrics.apply m =
      { successCount := wrap64 (m.successCount + tr.count Atom.addSuccess)
        failureCount := wrap64 (m.failureCount + tr.count Atom.addFailure)
        totalTime := wrap64 (m.totalTime + (tr.map Atom.totalDelta).sum)
        durations := m.durations ++ tr.filterMap Atom.appended } := by
  obtain ⟨h1, h2, h3⟩ := foldl_apply_isInt64 tr m h
  have e1 := foldl_apply_successCount tr m
  have e2 := foldl_apply_failureCount tr m
  have e3 := foldl_apply_totalTime tr m
  have e4 := foldl_apply_durations tr m
  rw [wrap64_of_isInt64 h1] at e1
  rw [wrap64_of_isInt64 h2] at e2
  rw [wrap64_of_isInt64 h3] at e3
  cases hm : tr.foldl Metrics.apply m with
  | mk sc fc tt ds =>
    rw [hm] at e1 e2 e3 e4
    simp only at e1 e2 e3 e4
    rw [e1, e2, e3, e4]

theorem Snapshot_foldl_perm (tr tr2 : List Atom) (m : Metrics)
    (h : isInt64 m.successCount ∧ isInt64 m.failureCount ∧ isInt64 m.totalTime)
    (hp : tr.Perm tr2) :
    (tr.foldl Metrics.apply m).Snapshot = (tr2.foldl Metrics.apply m).Snapshot := by
  rw [foldl_apply_eq tr m h, foldl_apply_eq tr2 m h]
  simp only [Metrics.Snapshot]
  rw [hp.count_eq, hp.count_eq, (hp.map Atom.totalDelta).sum_eq]
  congr 1
  apply List.eq_of_perm_of_sorted _ (sortSlice_sorted _) (sortSlice_sorted _)
  refine (sortSlice_perm _ _).trans (List.Perm.trans ?_ (sortSlice_perm _ _).symm)
  exact List.Perm.append_left _ (hp.filterMap _)

theorem flatten_set_perm {α : Type} (ts : List (List α)) (k : Nat) (a : α) (rest : List α)
    (h : ts[k]? = some (a :: rest)) :
    ts.flatten.Perm (a :: (ts.set k rest).flatten) := by
  induction ts generalizing k with
  | nil => simp at h
  | cons t ts ih =>
    cases k with
    | zero =>
      simp only [List.getElem?_cons_zero, Option.some.injEq] at h
      subst h
      simp
    | succ k =>
      simp only [List.getElem?_cons_succ] at h
      simp only [List.set_cons_succ, List.flatten_cons]
      exact (List.Perm.append_left t (ih k h)).trans List.perm_middle

theorem flatten_eq_nil_of_all {α : Type} (ts : List (List α))
    (h : ts.all List.isEmpty = true) : ts.flatten = [] := by
  induction ts with
  | nil => rfl
  | cons t ts ih =>
    simp only [List.all_cons, Bool.and_eq_true, List.isEmpty_iff] at h
    simp [h.1, ih h.2]

theorem interleave_perm {α : Type} (ks : List Nat) (ts : List (List α)) (tr : List α)
    (h : interleave ts ks = some tr) : tr.Perm ts.flatten := by
  induction ks generalizing ts tr with
  | nil =>
    unfold interleave at h
    split_ifs at h with hall
    simp only [Option.some.injEq] at h
    rw [← h, flatten_eq_nil_of_all ts hall]
  | cons k ks ih =>
    unfold interleave at h
    cases hk : ts[k]? with
    | none => rw [hk] at h; simp at h
    | some t =>
      cases t with
      | nil => rw [hk] at h; simp at h
      | cons a rest =>
        rw [hk] at h
        simp only at h
        cases hrec : interleave (ts.set k rest) ks with
        | none => rw [hrec] at h; simp at h
        | some tr2 =>
          rw [hrec] at h
          simp only [Option.some.injEq] at h
          rw [← h]
          exact (List.Perm.cons a (ih _ _ hrec)).trans (flatten_set_perm ts k a rest hk).symm

theorem interleave_exists {α : Type} (ts : List (List α)) :
    ∃ ks tr, interleave ts ks = some tr := by
  generalize hn : ts.flatten.length = n
  induction n using Nat.strong_induction_on generalizing ts with
  | _ n ih =>
    by_cases hall : ts.all List.isEmpty = true
    · exact ⟨[], [], by simp [interleave, hall]⟩
    · have : ∃ (k : Nat) (a : α) (rest : List α), ts[k]? = some (a :: rest) := by
        simp only [List.all_eq_true, not_forall] at hall
        obtain ⟨t, ht, hne⟩ := hall
        obtain ⟨k, hk, hkt⟩ := List.getElem_of_mem ht
        cases t with
        | nil => simp at hne
        | cons a rest => exact ⟨k, a, rest, by rw [List.getElem?_eq_getElem hk, hkt]⟩
      obtain ⟨k, a, rest, hk⟩ := this
      have hlen : (ts.set k rest).flatten.length < n := by
        have := (flatten_set_perm ts k a rest hk).length_eq
        simp only [List.length_cons] at this
        omega
      obtain ⟨ks, tr, h⟩ := ih _ hlen (ts.set k rest) rfl
      exact ⟨k :: ks, a :: tr, by simp [interleave, hk, h]⟩

theorem count_addSuccess_atoms (cs : List Call) :
    (cs.map Call.atoms).flatten.count Atom.addSuccess = cs.countP Call.isSuccess := by
  induction cs with
  | nil => rfl
  | cons c cs ih =>
    cases c <;>
      simp [Call.atoms, Call.isSuccess, List.count_cons, ih, List.countP_cons, List.count_append]

theorem count_addFailure_atoms (cs : List Call) :
    (cs.map Call.atoms).flatten.count Atom.addFailure = cs.count Call.failure := by
  induction cs with
  | nil => rfl
  | cons c cs ih =>
    cases c <;>
      simp [Call.atoms, List.count_cons, ih, List.count_append]

theorem sum_totalDelta_atoms (cs : List Call) :
    (((cs.map Call.atoms).flatten).map Atom.totalDelta).sum = (cs.filterMap Call.recorded).sum := by
  induction cs with
  | nil => rfl
  | cons c cs ih =>
    simp only [List.map_cons, List.flatten_cons, List.map_append, List.sum_append, ih]
    cases c <;> simp [Call.atoms, Call.recorded, Atom.totalDelta]

theorem appended_atoms (cs : List Call) :
    ((cs.map Call.atoms).flatten).filterMap Atom.appended = cs.filterMap Call.recorded := by
  induction cs with
  | nil => rfl
  | cons c cs ih =>
    cases c <;>
      simp [Call.atoms, Call.recorded, Atom.appended, ih, List.filterMap_append]

theorem countP_isSuccess_add_count_failure (cs : List Call) :
    cs.countP Call.isSuccess + cs.count Call.failure = cs.length := by
  induction cs with
  | nil => rfl
  | cons c cs ih =>
    cases c <;> simp [Call.isSuccess, List.countP_cons, List.count_cons] <;> omega

theorem length_filterMap_recorded (cs : List Call) :
    (cs.filterMap Call.recorded).length = cs.countP Call.isSuccess := by
  induction cs with
  | nil => rfl
  | cons c cs ih =>
    cases c <;> simp [Call.isSuccess, Call.recorded, List.countP_cons, ih]

theorem workerLoopCalls_length_le (cd : Nat → Bool) (oc : Nat → Outcome) (k i : Nat) :
    (workerLoopCalls cd oc k i).length ≤ k := by
  induction k generalizing i with
  | zero => simp [workerLoopCalls]
  | succ k ih =>
    unfold workerLoopCalls
    split_ifs
    · simp
    · simp only [List.length_cons]
      have := ih (i + 1)
      omega

theorem workerLoopCalls_length (cd : Nat → Bool) (oc : Nat → Outcome) (k i : Nat)
    (h : ∀ j, cd j = false) : (workerLoopCalls cd oc k i).length = k := by
  induction k generalizing i with
  | zero => simp [workerLoopCalls]
  | succ k ih =>
    unfold workerLoopCalls
    simp [h i, ih]

theorem workerLoopCalls_stop (cd : Nat → Bool) (oc : Nat → Outcome) (k i j : Nat)
    (hj : j < k) (hdone : cd (i + j) = true) (hbefore : ∀ l, l < j → cd (i + l) = false) :
    workerLoopCalls cd oc k i = (List.range j).map (fun l => sendRequestCall (oc (i + l))) := by
  induction k generalizing i j with
  | zero => omega
  | succ k ih =>
    unfold workerLoopCalls
    cases j with
    | zero =>
      simp only [Nat.add_zero] at hdone
      simp [hdone]
    | succ j =>
      have h0 : cd i = false := by simpa using hbefore 0 (by omega)
      simp only [h0, Bool.false_eq_true, if_false]
      rw [ih (i + 1) j (by omega) (by rw [← hdone]; congr 1; omega)
        (fun l hl => by rw [← hbefore (l + 1) (by omega)]; congr 1; omega)]
      rw [List.range_succ_eq_map]
      simp only [List.map_cons, List.map_map, Nat.add_zero]
      congr 1
      apply List.map_congr_left
      intro l _
      simp only [Function.comp]
      congr 2
      omega

theorem workerLoopCalls_all (cd : Nat → Bool) (oc : Nat → Outcome) (k i : Nat)
    (c : Call) (h : ∀ j, sendRequestCall (oc j) = c) :
    ∀ x ∈ workerLoopCalls cd oc k i, x = c := by
  induction k generalizing i with
  | zero => simp [workerLoopCalls]
  | succ k ih =>
    unfold workerLoopCalls
    split_ifs
    · simp
    · intro x hx
      rcases List.mem_cons.mp hx with e | e
      · rw [e, h]
      · exact ih (i + 1) x e

/-! ## Lemmas: runs -/

theorem foldl_apply_replicate_snapshot (k : Nat) (m : Metrics) :
    (List.replicate k Atom.snapshot).foldl Metrics.apply m = m := by
  induction k with
  | zero => rfl
  | succ k ih => simp only [List.replicate_succ, List.foldl_cons, Metrics.apply, SnapshotCall_snd, ih]

theorem flatten_map_atoms {β : Type} (l : List β) (f : β → List Call) :
    (l.map (fun x => ((f x).map Call.atoms).flatten)).flatten
      = (((l.map f).flatten).map Call.atoms).flatten := by
  induction l with
  | nil => rfl
  | cons x xs ih =>
    simp only [List.map_cons, List.flatten_cons, List.map_append, List.flatten_append, ih]

theorem goroutines_flatten (cfg : Config) (env : RunEnv) (n : Int) (gs : List (List Atom))
    (hn : cfg.RequestsPerWorker = some n) (h : Run.goroutines cfg env = some gs) :
    ∃ k, gs.flatten = ((Run.calls cfg env n).map Call.atoms).flatten
      ++ List.replicate k Atom.snapshot := by
  unfold Run.goroutines at h
  rw [hn] at h
  simp only [Option.some.injEq] at h
  rw [← h, List.flatten_append, flatten_map_atoms]
  unfold Run.calls
  by_cases hl : cfg.LiveFeed = true
  · exact ⟨env.ticks, by simp [hl]⟩
  · exact ⟨0, by simp [hl]⟩

theorem New_isSome {n : Int} (h : 0 ≤ n) :
    New n = some { successCount := 0, failureCount := 0, totalTime := 0, durations := [] } := by
  unfold New
  rw [if_neg (by omega)]

/-- The snapshot a run ends with is the one that the calls of its workers give when
made one worker after the other. -/
theorem Run_eq_sequential (cfg : Config) (env : RunEnv) (schedule : List Nat) (s : Snapshot)
    (h : Run cfg env schedule = some s) :
    ∃ (m : Metrics) (n : Int), New cfg.Requests = some m ∧ cfg.RequestsPerWorker = some n ∧
      s = (m.run (Run.calls cfg env n)).Snapshot := by
  unfold Run at h
  cases hm : New cfg.Requests with
  | none => rw [hm] at h; simp at h
  | some m =>
    cases hn : cfg.RequestsPerWorker with
    | none =>
      have : Run.goroutines cfg env = none := by simp [Run.goroutines, hn]
      rw [hm, this] at h; simp at h
    | some n =>
      cases hg : Run.goroutines cfg env with
      | none => rw [hm, hg] at h; simp at h
      | some gs =>
        rw [hm, hg] at h
        simp only at h
        cases ht : interleave gs schedule with
        | none => rw [ht] at h; simp at h
        | some tr =>
          rw [ht] at h
          simp only [Option.some.injEq] at h
          refine ⟨m, n, rfl, rfl, ?_⟩
          obtain ⟨k, hk⟩ := goroutines_flatten cfg env n gs hn hg
          have hp := interleave_perm schedule gs tr ht
          have hm0 := New_eq hm
          have hint : isInt64 m.successCount ∧ isInt64 m.failureCount ∧ isInt64 m.totalTime := by
            rw [hm0]; decide
          rw [← h, Snapshot_foldl_perm tr gs.flatten m hint hp, hk, List.foldl_append,
            foldl_apply_replicate_snapshot, run_eq_foldl_atoms]

/-- A run has a complete schedule as soon as making the runner and starting the run
do not panic. -/
theorem Run_exists (cfg : Config) (env : RunEnv) (h0 : 0 ≤ cfg.Requests)
    (hc : cfg.Concurrency ≠ 0) : ∃ schedule s, Run cfg env schedule = some s := by
  have hn : ∃ n, cfg.RequestsPerWorker = some n := by
    unfold Config.RequestsPerWorker div64
    rw [if_neg hc]
    exact ⟨_, rfl⟩
  obtain ⟨n, hn⟩ := hn
  have hg : ∃ gs, Run.goroutines cfg env = some gs := by
    unfold Run.goroutines
    rw [hn]
    exact ⟨_, rfl⟩
  obtain ⟨gs, hg⟩ := hg
  obtain ⟨ks, tr, ht⟩ := interleave_exists gs
  refine ⟨ks, (tr.foldl Metrics.apply
    { successCount := 0, failureCount := 0, totalTime := 0, durations := [] }).Snapshot, ?_⟩
  unfold Run
  rw [New_isSome h0, hg]
  simp only [ht]

theorem RequestsPerWorker_eq (cfg : Config) (hr : isInt64 cfg.Requests) (h0 : 0 ≤ cfg.Requests)
    (hc : 1 ≤ cfg.Concurrency) :
    cfg.RequestsPerWorker = some (cfg.Requests / cfg.Concurrency) := by
  unfold Config.RequestsPerWorker div64
  rw [if_neg (by omega), Int.tdiv_eq_ediv h0 (by omega)]
  congr 1
  apply wrap64_of_isInt64
  unfold isInt64 at hr ⊢
  have h1 : 0 ≤ cfg.Requests / cfg.Concurrency := Int.ediv_nonneg h0 (by omega)
  have h2 : cfg.Requests / cfg.Concurrency ≤ cfg.Requests :=
    Int.ediv_le_self _ h0
  omega

theorem flatten_map_range_length (c n : Nat) (f : Nat → List Call)
    (h : ∀ w, (f w).length = n) : ((List.range c).map f).flatten.length = c * n := by
  induction c with
  | zero => simp
  | succ c ih =>
    rw [List.range_succ, List.map_append, List.flatten_append, List.length_append, ih]
    simp [h, Nat.succ_mul]

theorem flatten_map_range_length_le (c n : Nat) (f : Nat → List Call)
    (h : ∀ w, (f w).length ≤ n) : ((List.range c).map f).flatten.length ≤ c * n := by
  induction c with
  | zero => simp
  | succ c ih =>
    rw [List.range_succ, List.map_append, List.flatten_append, List.length_append]
    simp only [List.map_cons, List.map_nil, List.flatten_cons, List.flatten_nil,
      List.append_nil, Nat.succ_mul]
    have := h c
    omega

theorem Run_calls_length (cfg : Config) (env : RunEnv) (n : Int)
    (h : ∀ w i, env.ctxDone w i = false) :
    (Run.calls cfg env n).length = cfg.Concurrency.toNat * n.toNat := by
  unfold Run.calls
  apply flatten_map_range_length
  intro w
  exact workerLoopCalls_length _ _ _ _ (h w)

theorem Run_calls_length_le (cfg : Config) (env : RunEnv) (n : Int) :
    (Run.calls cfg env n).length ≤ cfg.Concurrency.toNat * n.toNat := by
  unfold Run.calls
  apply flatten_map_range_length_le
  intro w
  exact workerLoopCalls_length_le _ _ _ _

theorem toNat_mul_ediv (r c : Int) (h0 : 0 ≤ r) (hc : 1 ≤ c) :
    ((c.toNat * (r / c).toNat : Nat) : Int) = c * (r / c) := by
  have h1 : 0 ≤ r / c := Int.ediv_nonneg h0 (by omega)
  push_cast
  rw [Int.toNat_of_nonneg (by omega), Int.toNat_of_nonneg h1]

theorem run_all_failure (m : Metrics) (cs : List Call) (h : ∀ c ∈ cs, c = Call.failure) :
    (m.run cs).successCount = m.successCount ∧ (m.run cs).totalTime = m.totalTime ∧
      (m.run cs).durations = m.durations := by
  unfold Metrics.run
  induction cs generalizing m with
  | nil => exact ⟨rfl, rfl, rfl⟩
  | cons c cs ih =>
    have hc := h c (List.mem_cons_self _ _)
    subst hc
    simp only [List.foldl_cons]
    exact ih (m.step Call.failure) (fun c hc => h c (List.mem_cons_of_mem _ hc))

theorem workerLoopCalls_length_le_of_done (cd : Nat → Bool) (oc : Nat → Outcome) (k i j : Nat)
    (h : cd (i + j) = true) : (workerLoopCalls cd oc k i).length ≤ j := by
  induction k generalizing i j with
  | zero => simp [workerLoopCalls]
  | succ k ih =>
    unfold workerLoopCalls
    split_ifs with hi
    · simp
    · cases j with
      | zero => simp only [Nat.add_zero] at h; exact absurd h hi
      | succ j =>
        simp only [List.length_cons]
        have := ih (i + 1) j (by rw [← h]; congr 1; omega)
        omega

theorem run_snapshot_counts (m : Metrics) (cs : List Call) (n : Int) (hm : New n = some m)
    (hb : (cs.length : Int) < 2 ^ 63) :
    0 ≤ (m.run cs).Snapshot.SuccessCount ∧ 0 ≤ (m.run cs).Snapshot.FailureCount ∧
      (m.run cs).Snapshot.SuccessCount + (m.run cs).Snapshot.FailureCount = cs.length := by
  have hm0 := New_eq hm
  have := run_counts m 0 cs (by rw [hm0]) (by rw [hm0]) (by rw [hm0]; rfl) (by rw [hm0]; rfl)
    (by push_cast; omega)
  refine ⟨this.1, this.2.1, ?_⟩
  have h3 := this.2.2.1
  simp only [zero_add] at h3
  exact h3

theorem mul_ediv_le_self (r c : Int) (hc : 1 ≤ c) : c * (r / c) ≤ r := by
  have := Int.emod_add_ediv r c
  have h2 := Int.emod_nonneg r (show c ≠ 0 by omega)
  omega

theorem Run_counts_le (cfg : Config) (env : RunEnv) (hC : 1 ≤ cfg.Concurrency)
    (hR : 0 ≤ cfg.Requests) (hR64 : isInt64 cfg.Requests) (schedule : List Nat) (s : Snapshot)
    (h : Run cfg env schedule = some s) :
    ∃ calls : ℕ, 0 ≤ s.SuccessCount ∧ 0 ≤ s.FailureCount ∧
      s.SuccessCount + s.FailureCount = calls ∧ (calls : Int) ≤ cfg.Requests ∧
      ((∀ w i, env.ctxDone w i = false) → cfg.Requests % cfg.Concurrency = 0 →
        (calls : Int) = cfg.Requests) := by
  obtain ⟨m, n, hm, hn, hs⟩ := Run_eq_sequential cfg env schedule s h
  rw [RequestsPerWorker_eq cfg hR64 hR hC] at hn
  simp only [Option.some.injEq] at hn
  subst hn
  have hle := Run_calls_length_le cfg env (cfg.Requests / cfg.Concurrency)
  have hcast := toNat_mul_ediv cfg.Requests cfg.Concurrency hR hC
  have hmul := mul_ediv_le_self cfg.Requests cfg.Concurrency hC
  have hlen : ((Run.calls cfg env (cfg.Requests / cfg.Concurrency)).length : Int)
      ≤ cfg.Requests := by
    have : ((Run.calls cfg env (cfg.Requests / cfg.Concurrency)).length : Int)
        ≤ ((cfg.Concurrency.toNat * (cfg.Requests / cfg.Concurrency).toNat : Nat) : Int) := by
      exact_mod_cast hle
    omega
  have hcounts := run_snapshot_counts m _ _ hm
    (show ((Run.calls cfg env (cfg.Requests / cfg.Concurrency)).length : Int) < 2 ^ 63 by
      unfold isInt64 at hR64; omega)
  rw [← hs] at hcounts
  refine ⟨_, hcounts.1, hcounts.2.1, hcounts.2.2, hlen, ?_⟩
  intro hnc hdiv
  rw [Run_calls_length cfg env _ hnc, hcast]
  exact Int.mul_ediv_cancel' (Int.dvd_of_emod_eq_zero hdiv)

theorem step_injective (m : Metrics) (c c2 : Call) (h : m.step c = m.step c2) : c = c2 := by
  cases c with
  | success d =>
    cases c2 with
    | success d2 =>
      have := congrArg Metrics.durations h
      simp only [Metrics.step, Metrics.RecordSuccess, List.append_cancel_left_eq,
        List.cons.injEq, and_true] at this
      rw [this]
    | failure =>
      have := congrArg (fun x => x.durations.length) h
      simp [Metrics.step, Metrics.RecordSuccess, Metrics.RecordFailure] at this
  | failure =>
    cases c2 with
    | success d2 =>
      have := congrArg (fun x => x.durations.length) h
      simp [Metrics.step, Metrics.RecordSuccess, Metrics.RecordFailure] at this
    | failure => rfl

theorem Run_calls_all (cfg : Config) (env : RunEnv) (n : Int) (c : Call)
    (h : ∀ w i, sendRequestCall (env.outcome w i) = c) :
    ∀ x ∈ Run.calls cfg env n, x = c := by
  intro x hx
  unfold Run.calls at hx
  rw [List.mem_flatten] at hx
  obtain ⟨l, hl, hxl⟩ := hx
  rw [List.mem_map] at hl
  obtain ⟨w, _, rfl⟩ := hl
  exact workerLoopCalls_all _ _ _ _ c (h w) x hxl

theorem producers_flatten (n k : Nat) (d : Nat → Nat → Int) :
    (producers n k d).flatten
      = ((((List.range n).map (fun w => (List.range k).map (fun j => Call.success (d w j)))).flatten).map
          Call.atoms).flatten := by
  unfold producers
  exact flatten_map_atoms (List.range n) (fun w => (List.range k).map (fun j => Call.success (d w j)))

theorem producers_calls_length (n k : Nat) (d : Nat → Nat → Int) :
    (((List.range n).map (fun w => (List.range k).map (fun j => Call.success (d w j)))).flatten).length
      = n * k :=
  flatten_map_range_length n k _ (fun w => by simp)

theorem producers_calls_success (n k : Nat) (d : Nat → Nat → Int) :
    ∀ c ∈ ((List.range n).map (fun w => (List.range k).map (fun j => Call.success (d w j)))).flatten,
      c.isSuccess = true := by
  intro c hc
  rw [List.mem_flatten] at hc
  obtain ⟨l, hl, hcl⟩ := hc
  rw [List.mem_map] at hl
  obtain ⟨w, _, rfl⟩ := hl
  rw [List.mem_map] at hcl
  obtain ⟨j, _, rfl⟩ := hcl
  rfl

theorem count_failure_of_success (cs : List Call) (h : ∀ c ∈ cs, c.isSuccess = true) :
    cs.count Call.failure = 0 := by
  rw [List.count_eq_zero]
  intro hmem
  have := h _ hmem
  simp [Call.isSuccess] at this

theorem countP_success_of_success (cs : List Call) (h : ∀ c ∈ cs, c.isSuccess = true) :
    cs.countP Call.isSuccess = cs.length := by
  have := countP_isSuccess_add_count_failure cs
  rw [count_failure_of_success cs h] at this
  omega

theorem foldl_apply_filter_snapshot (tr : List Atom) (m : Metrics) :
    tr.foldl Metrics.apply m
      = (tr.filter (fun a => decide (a ≠ Atom.snapshot))).foldl Metrics.apply m := by
  induction tr generalizing m with
  | nil => rfl
  | cons a tr ih =>
    cases a <;> simp [List.filter_cons, Metrics.apply, SnapshotCall_snd, ih]

theorem workerLoop_eq_foldl (cd : Nat → Bool) (oc : Nat → Outcome) (k i : Nat) (m : Metrics)
    (h : ∀ j, cd j = false) :
    workerLoop cd oc k i m
      = (List.range k).foldl (fun acc j => sendRequest acc (oc (i + j))) m := by
  induction k generalizing i m with
  | zero => rfl
  | succ k ih =>
    unfold workerLoop
    rw [if_neg (by simp [h i]), ih, List.range_succ_eq_map, List.foldl_cons, List.foldl_map]
    simp only [Nat.add_zero]
    congr 1
    funext acc j
    congr 2
    omega

theorem run_flatten_map (m : Metrics) (l : List Nat) (f : Nat → List Call) :
    m.run ((l.map f).flatten) = l.foldl (fun acc w => acc.run (f w)) m := by
  induction l generalizing m with
  | nil => rfl
  | cons w ws ih =>
    simp only [List.map_cons, List.flatten_cons, List.foldl_cons]
    rw [← ih]
    unfold Metrics.run
    rw [List.foldl_append]

theorem run_calls_eq_workers (cfg : Config) (env : RunEnv) (n : Int) (m : Metrics) :
    m.run (Run.calls cfg env n)
      = (List.range cfg.Concurrency.toNat).foldl
          (fun acc w => worker (env.ctxDone w) (env.outcome w) n acc) m := by
  unfold Run.calls
  rw [run_flatten_map]
  congr 1
  funext acc w
  exact (worker_eq_run _ _ _ _).symm

/-! ## The claims on configuration, runs and schedules -/

/-- Claim C11. For every run that is not cancelled, with `Concurrency = C ≥ 1`,
`Requests = R ≥ 1` and `R mod C = 0`, whatever happens to the individual requests and
whatever the schedule of the goroutines: `RequestsPerWorker()` is `R / C`; each worker
executes exactly `R / C` requests, that is, `worker` is `sendRequest` applied for the
iterations `0` to `R / C - 1` in turn, which are exactly `R / C` calls on the collector
and count `R / C` successes and failures on a fresh one; each `sendRequest` records one
failure or one success; the run has a complete schedule; and the final snapshot, which
is the one the `C` workers give when run one after the other, has
`TotalRequests() = SuccessCount + FailureCount = R`. -/
theorem Run_total_requests (cfg : Config) (env : RunEnv)
    (hC : 1 ≤ cfg.Concurrency) (hR : 1 ≤ cfg.Requests) (hR64 : isInt64 cfg.Requests)
    (hdiv : cfg.Requests % cfg.Concurrency = 0)
    (hnc : ∀ w i, env.ctxDone w i = false) :
    cfg.RequestsPerWorker = some (cfg.Requests / cfg.Concurrency) ∧
    (∀ w, (workerCalls (env.ctxDone w) (env.outcome w)
        (cfg.Requests / cfg.Concurrency)).length = (cfg.Requests / cfg.Concurrency).toNat) ∧
    (∀ (m : Metrics) (o : Outcome),
      sendRequest m o = m.RecordFailure ∨ ∃ d, sendRequest m o = m.RecordSuccess d) ∧
    (∃ schedule s, Run cfg env schedule = some s) ∧
    (∀ schedule s, Run cfg env schedule = some s →
      s.TotalRequests = cfg.Requests ∧ s.SuccessCount + s.FailureCount = cfg.Requests) ∧
    (∀ (w : Nat) (m : Metrics),
      worker (env.ctxDone w) (env.outcome w) (cfg.Requests / cfg.Concurrency) m
        = (List.range (cfg.Requests / cfg.Concurrency).toNat).foldl
            (fun acc i => sendRequest acc (env.outcome w i)) m ∧
      worker (env.ctxDone w) (env.outcome w) (cfg.Requests / cfg.Concurrency) m
        = m.run (workerCalls (env.ctxDone w) (env.outcome w)
            (cfg.Requests / cfg.Concurrency))) ∧
    (∀ (w : Nat) (e : Int) (m : Metrics), New e = some m →
      (worker (env.ctxDone w) (env.outcome w)
          (cfg.Requests / cfg.Concurrency) m).Snapshot.SuccessCount
        + (worker (env.ctxDone w) (env.outcome w)
          (cfg.Requests / cfg.Concurrency) m).Snapshot.FailureCount
        = cfg.Requests / cfg.Concurrency) ∧
    (∀ schedule s, Run cfg env schedule = some s →
      ∃ m : Metrics, New cfg.Requests = some m ∧
        s = ((List.range cfg.Concurrency.toNat).foldl
          (fun acc w => worker (env.ctxDone w) (env.outcome w)
            (cfg.Requests / cfg.Concurrency) acc) m).Snapshot) := by
  have hq0 : 0 ≤ cfg.Requests / cfg.Concurrency := Int.ediv_nonneg (by omega) (by omega)
  have hqle : cfg.Requests / cfg.Concurrency ≤ cfg.Requests := Int.ediv_le_self _ (by omega)
  have hrpw := RequestsPerWorker_eq cfg hR64 (by omega) hC
  refine ⟨hrpw, ?_, ?_, Run_exists cfg env (by omega) (by omega), ?_, ?_, ?_, ?_⟩
  · intro w
    exact workerLoopCalls_length _ _ _ _ (hnc w)
  · intro m o
    rw [sendRequest_eq_step]
    cases sendRequestCall o with
    | success d => exact Or.inr ⟨d, rfl⟩
    | failure => exact Or.inl rfl
  · intro schedule s h
    obtain ⟨calls, _, _, h3, _, h5⟩ := Run_counts_le cfg env hC (by omega) hR64 schedule s h
    have hsum : s.SuccessCount + s.FailureCount = cfg.Requests := by
      rw [h3, h5 hnc hdiv]
    refine ⟨?_, hsum⟩
    unfold Snapshot.TotalRequests
    rw [hsum]
    exact wrap64_of_isInt64 hR64
  · intro w m
    refine ⟨?_, worker_eq_run _ _ _ _⟩
    have := workerLoop_eq_foldl (env.ctxDone w) (env.outcome w)
      (cfg.Requests / cfg.Concurrency).toNat 0 m (hnc w)
    simpa [worker] using this
  · intro w e m hm
    rw [worker_eq_run]
    have hlen : (workerCalls (env.ctxDone w) (env.outcome w)
        (cfg.Requests / cfg.Concurrency)).length = (cfg.Requests / cfg.Concurrency).toNat :=
      workerLoopCalls_length _ _ _ _ (hnc w)
    have hcounts := run_snapshot_counts m (workerCalls (env.ctxDone w) (env.outcome w)
      (cfg.Requests / cfg.Concurrency)) e hm (by
        rw [hlen, Int.toNat_of_nonneg hq0]
        unfold isInt64 at hR64
        omega)
    rw [hcounts.2.2, hlen, Int.toNat_of_nonneg hq0]
  · intro schedule s h
    obtain ⟨m, n, hm, hn, hs⟩ := Run_eq_sequential cfg env schedule s h
    rw [hrpw] at hn
    have hn2 : n = cfg.Requests / cfg.Concurrency := (Option.some.inj hn).symm
    subst hn2
    exact ⟨m, hm, by rw [hs, run_calls_eq_workers]⟩

theorem Run_total_requests_witness :
    Run ⟨"http://127.0.0.1", "GET", 2, 4, [], none, false⟩
        ⟨fun _ _ => false,
          fun w i => if (w + i) % 2 = 0 then Outcome.response 200 (10 * w + i + 1)
            else Outcome.response 404 3, 0⟩
        [0, 1, 0, 1, 0, 1, 0, 1]
      = some (Snapshot.mk 2 2 13 [1, 12]) ∧
    (Snapshot.mk 2 2 13 [1, 12]).TotalRequests = 4 ∧
    worker (fun _ => false)
        (fun i => if (0 + i) % 2 = 0 then Outcome.response 200 (10 * 0 + i + 1)
          else Outcome.response 404 3) 2 (Metrics.mk 0 0 0 [])
      = Metrics.mk 1 1 1 [1] :=
  ⟨by decide,
    ((Run_total_requests ⟨"http://127.0.0.1", "GET", 2, 4, [], none, false⟩
        ⟨fun _ _ => false,
          fun w i => if (w + i) % 2 = 0 then Outcome.response 200 (10 * w + i + 1)
            else Outcome.response 404 3, 0⟩
        (by decide) (by decide) (by decide) (by decide) (fun _ _ => rfl)).2.2.2.2.1
      [0, 1, 0, 1, 0, 1, 0, 1] _ (by decide)).1,
    by decide⟩

/-- Claim C12. `Validate` returns an error if and only if `Concurrency ≤ 0`, or
`Requests ≤ 0`, or `Requests mod Concurrency ≠ 0`, or `Method` is not one of the nine
standard verbs. In particular a configuration whose `Requests` is not evenly divisible
by `Concurrency` is rejected, and one with positive, evenly dividing counts and a valid
method is accepted. -/
theorem Validate_spec (c : Config) :
    (c.Validate ≠ none ↔
      (c.Concurrency ≤ 0 ∨ c.Requests ≤ 0 ∨ c.Requests % c.Concurrency ≠ 0 ∨
        c.Method ∉ ["GET", "POST", "PUT", "PATCH", "DELETE", "HEAD", "OPTIONS", "CONNECT",
          "TRACE"])) ∧
    (c.Requests % c.Concurrency ≠ 0 → c.Validate ≠ none) ∧
    (0 < c.Concurrency → 0 < c.Requests → c.Requests % c.Concurrency = 0 →
      c.Method ∈ ["GET", "POST", "PUT", "PATCH", "DELETE", "HEAD", "OPTIONS", "CONNECT",
        "TRACE"] → c.Validate = none) := by
  have hm := validMethodsAt_iff c.Method
  have key : c.Validate ≠ none ↔
      (c.Concurrency ≤ 0 ∨ c.Requests ≤ 0 ∨ c.Requests % c.Concurrency ≠ 0 ∨
        c.Method ∉ ["GET", "POST", "PUT", "PATCH", "DELETE", "HEAD", "OPTIONS", "CONNECT",
          "TRACE"]) := by
    rw [← hm]
    unfold Config.Validate HTTPMethod.IsValid
    by_cases h1 : c.Concurrency ≤ 0
    · simp [h1]
    by_cases h2 : c.Requests ≤ 0
    · simp [h1, h2]
    have e : Int.tmod c.Requests c.Concurrency = c.Requests % c.Concurrency :=
      Int.tmod_eq_emod (by omega) (by omega)
    rw [e]
    by_cases h3 : c.Requests % c.Concurrency ≠ 0
    · simp [h1, h2, h3]
    by_cases h4 : validMethodsAt c.Method = true
    · simp [h1, h2, h3, h4]
    · simp [h1, h2, h3, h4]
  refine ⟨key, fun h => key.mpr (Or.inr (Or.inr (Or.inl h))), ?_⟩
  intro h1 h2 h3 h4
  by_contra hne
  rcases key.mp hne with h | h | h | h
  · omega
  · omega
  · exact h h3
  · exact h h4

theorem Validate_spec_witness :
    (Config.mk "https://example.com" "GET" 2 10 [] none false).Validate = none ∧
    (Config.mk "https://example.com" "GET" 3 10 [] none false).Validate ≠ none :=
  ⟨(Validate_spec (Config.mk "https://example.com" "GET" 2 10 [] none false)).2.2
      (by decide) (by decide) (by decide) (by decide),
    (Validate_spec (Config.mk "https://example.com" "GET" 3 10 [] none false)).2.1
      (by decide)⟩

/-- Claim C13. Every call of `sendRequest` records exactly one outcome: it changes the
collector as exactly one call does, a `RecordFailure` when the request cannot be built
or the transport fails, a `RecordFailure` when a response arrives with a status code of
400 or more, and a `RecordSuccess` with the measured duration when the status code is
below 400. So a run that is not cancelled, against a server that always answers 500,
ends with 0 successes, no duration and one failure per request. -/
theorem sendRequest_spec :
    (∀ (m : Metrics) (o : Outcome), ∃! c : Call, sendRequest m o = m.step c) ∧
    (∀ m : Metrics, sendRequest m Outcome.buildError = m.RecordFailure ∧
      sendRequest m Outcome.transportError = m.RecordFailure) ∧
    (∀ (m : Metrics) (statusCode duration : Int), 400 ≤ statusCode →
      sendRequest m (Outcome.response statusCode duration) = m.RecordFailure) ∧
    (∀ (m : Metrics) (statusCode duration : Int), statusCode < 400 →
      sendRequest m (Outcome.response statusCode duration) = m.RecordSuccess duration) ∧
    (∀ (cfg : Config) (env : RunEnv), 1 ≤ cfg.Concurrency → 0 ≤ cfg.Requests →
      isInt64 cfg.Requests → cfg.Requests % cfg.Concurrency = 0 →
      (∀ w i, env.ctxDone w i = false) →
      (∀ w i, ∃ d, env.outcome w i = Outcome.response 500 d) →
      ∀ schedule s, Run cfg env schedule = some s →
        s.SuccessCount = 0 ∧ s.FailureCount = cfg.Requests ∧ s.Durations = []) := by
  refine ⟨?_, fun m => ⟨rfl, rfl⟩, ?_, ?_, ?_⟩
  · intro m o
    refine ⟨sendRequestCall o, sendRequest_eq_step m o, ?_⟩
    intro c hc
    rw [sendRequest_eq_step] at hc
    exact (step_injective m _ _ hc).symm
  · intro m st d h
    simp only [sendRequest]
    rw [if_neg (by omega)]
  · intro m st d h
    simp only [sendRequest]
    rw [if_pos h]
  · intro cfg env hC hR hR64 hdiv hnc h500 schedule s h
    obtain ⟨calls, _, _, h3, _, h5⟩ := Run_counts_le cfg env hC hR hR64 schedule s h
    obtain ⟨m, n, hm, hn, hs⟩ := Run_eq_sequential cfg env schedule s h
    have hall : ∀ x ∈ Run.calls cfg env n, x = Call.failure := by
      apply Run_calls_all
      intro w i
      obtain ⟨d, hd⟩ := h500 w i
      rw [hd]
      simp [sendRequestCall]
    obtain ⟨f1, _, f3⟩ := run_all_failure m _ hall
    have hm0 := New_eq hm
    have hS : s.SuccessCount = 0 := by
      rw [hs]
      show (m.run (Run.calls cfg env n)).successCount = 0
      rw [f1, hm0]
    have hD : s.Durations = [] := by
      rw [hs]
      show sortSlice _ (m.run (Run.calls cfg env n)).durations = []
      rw [f3, hm0]
      rfl
    refine ⟨hS, ?_, hD⟩
    rw [hS, h5 hnc hdiv] at h3
    omega

theorem sendRequest_spec_witness :
    sendRequest (Metrics.mk 0 0 0 []) (Outcome.response 500 7) = Metrics.mk 0 1 0 [] ∧
    sendRequest (Metrics.mk 0 0 0 []) (Outcome.response 200 7) = Metrics.mk 1 0 7 [7] ∧
    Run ⟨"http://127.0.0.1", "GET", 1, 5, [], none, false⟩
        ⟨fun _ _ => false, fun _ _ => Outcome.response 500 7, 0⟩ [0, 0, 0, 0, 0]
      = some (Snapshot.mk 0 5 0 []) ∧
    (Snapshot.mk 0 5 0 []).SuccessCount = 0 ∧ (Snapshot.mk 0 5 0 []).FailureCount = 5 := by
  have h := sendRequest_spec
  have hrun : Run ⟨"http://127.0.0.1", "GET", 1, 5, [], none, false⟩
        ⟨fun _ _ => false, fun _ _ => Outcome.response 500 7, 0⟩ [0, 0, 0, 0, 0]
      = some (Snapshot.mk 0 5 0 []) := by decide
  have h5 := h.2.2.2.2 ⟨"http://127.0.0.1", "GET", 1, 5, [], none, false⟩
    ⟨fun _ _ => false, fun _ _ => Outcome.response 500 7, 0⟩ (by decide) (by decide) (by decide)
    (by decide) (fun _ _ => rfl) (fun _ _ => ⟨7, rfl⟩) [0, 0, 0, 0, 0] _ hrun
  exact ⟨(h.2.2.1 _ 500 7 (by decide)).trans (by decide),
    (h.2.2.2.1 _ 200 7 (by decide)).trans (by decide), hrun, h5.1, h5.2.1⟩

/-- Claim C14. Here `ctxDone i` tells whether the cancellation signal is triggered
when iteration `i` of a worker checks it. For every quota `n` and every such course of
the signal, the worker makes at most `n` requests; it makes no request at an iteration
that finds the signal triggered nor at any later one (at most `i` requests when
iteration `i` would find it triggered); it records nothing when the signal is
triggered before the first iteration; and when it first observes the signal at
iteration `i` it has made exactly the requests of iterations `0` to `i - 1` and
returns. Hence every run, cancelled or not, records at most `Requests` requests in
total. -/
theorem worker_cancellation :
    (∀ (ctxDone : Nat → Bool) (outcome : Nat → Outcome) (n : Int) (m : Metrics),
      worker ctxDone outcome n m = m.run (workerCalls ctxDone outcome n) ∧
      (workerCalls ctxDone outcome n).length ≤ n.toNat) ∧
    (∀ (ctxDone : Nat → Bool) (outcome : Nat → Outcome) (n : Int) (i : Nat),
      ctxDone i = true → (workerCalls ctxDone outcome n).length ≤ i) ∧
    (∀ (ctxDone : Nat → Bool) (outcome : Nat → Outcome) (n : Int) (m : Metrics),
      ctxDone 0 = true →
      workerCalls ctxDone outcome n = [] ∧ worker ctxDone outcome n m = m) ∧
    (∀ (ctxDone : Nat → Bool) (outcome : Nat → Outcome) (n : Int) (i : Nat),
      (i : Int) < n → ctxDone i = true → (∀ l, l < i → ctxDone l = false) →
      workerCalls ctxDone outcome n
        = (List.range i).map (fun l => sendRequestCall (outcome l))) ∧
    (∀ (cfg : Config) (env : RunEnv), 1 ≤ cfg.Concurrency → 0 ≤ cfg.Requests →
      isInt64 cfg.Requests →
      ∀ schedule s, Run cfg env schedule = some s →
        0 ≤ s.SuccessCount ∧ 0 ≤ s.FailureCount ∧
        s.SuccessCount + s.FailureCount ≤ cfg.Requests ∧
        s.TotalRequests ≤ cfg.Requests) := by
  refine ⟨?_, ?_, ?_, ?_, ?_⟩
  · intro cd oc n m
    exact ⟨worker_eq_run cd oc n m, workerLoopCalls_length_le cd oc n.toNat 0⟩
  · intro cd oc n i h
    exact workerLoopCalls_length_le_of_done cd oc n.toNat 0 i (by simpa using h)
  · intro cd oc n m h
    have h0 : workerCalls cd oc n = [] := by
      have := workerLoopCalls_length_le_of_done cd oc n.toNat 0 0 (by simpa using h)
      exact List.length_eq_zero.mp (by unfold workerCalls; omega)
    exact ⟨h0, by rw [worker_eq_run, h0]; rfl⟩
  · intro cd oc n i hi hdone hbefore
    have := workerLoopCalls_stop cd oc n.toNat 0 i (by omega) (by simpa using hdone)
      (fun l hl => by simpa using hbefore l hl)
    simpa using this
  · intro cfg env hC hR hR64 schedule s h
    obtain ⟨calls, h1, h2, h3, h4, _⟩ := Run_counts_le cfg env hC hR hR64 schedule s h
    refine ⟨h1, h2, by omega, ?_⟩
    unfold Snapshot.TotalRequests
    rw [wrap64_of_isInt64 (by unfold isInt64 at hR64 ⊢; omega)]
    omega

theorem worker_cancellation_witness :
    workerCalls (fun _ => true) (fun _ => Outcome.response 200 7) 5 = [] ∧
    worker (fun _ => true) (fun _ => Outcome.response 200 7) 5 (Metrics.mk 0 0 0 [])
      = Metrics.mk 0 0 0 [] ∧
    workerCalls (fun i => decide (2 ≤ i)) (fun _ => Outcome.response 200 7) 5
      = (List.range 2).map (fun _ => sendRequestCall (Outcome.response 200 7)) :=
  ⟨(worker_cancellation.2.2.1 (fun _ => true) (fun _ => Outcome.response 200 7) 5
      (Metrics.mk 0 0 0 []) rfl).1,
    (worker_cancellation.2.2.1 (fun _ => true) (fun _ => Outcome.response 200 7) 5
      (Metrics.mk 0 0 0 []) rfl).2,
    worker_cancellation.2.2.2.1 (fun i => decide (2 ≤ i)) (fun _ => Outcome.response 200 7) 5 2
      (by decide) (by decide) (by decide)⟩

/-- Claim C15. Let `n` producers call `RecordSuccess` `k` times each on one fresh
collector (`n * k < 2^63`), the goroutines being interleaved at the grain of the atomic
additions and of the append under the mutex. A complete schedule exists, and for every
complete schedule the final snapshot has `SuccessCount = n * k`, exactly `n * k`
durations, which are the recorded ones, and no failure: no update is lost. -/
theorem concurrent_RecordSuccess (n k : Nat) (d : Nat → Nat → Int) (e : Int) (m : Metrics)
    (hm : New e = some m) (hb : n * k < 2 ^ 63) :
    (∃ schedule trace, interleave (producers n k d) schedule = some trace) ∧
    (∀ schedule trace, interleave (producers n k d) schedule = some trace →
      (trace.foldl Metrics.apply m).Snapshot.SuccessCount = (n * k : ℕ) ∧
      (trace.foldl Metrics.apply m).Snapshot.Durations.length = n * k ∧
      (trace.foldl Metrics.apply m).Snapshot.FailureCount = 0 ∧
      (trace.foldl Metrics.apply m).Snapshot.Durations.Perm
        ((List.range n).map (fun w => (List.range k).map (fun j => d w j))).flatten) := by
  refine ⟨interleave_exists _, ?_⟩
  intro schedule trace h
  have hp := interleave_perm schedule _ trace h
  rw [producers_flatten] at hp
  have hm0 := New_eq hm
  have hint : isInt64 m.successCount ∧ isInt64 m.failureCount ∧ isInt64 m.totalTime := by
    rw [hm0]; decide
  have hsucc := producers_calls_success n k d
  have hlen := producers_calls_length n k d
  rw [foldl_apply_eq trace m hint]
  simp only [Metrics.Snapshot]
  rw [hp.count_eq, hp.count_eq, count_addSuccess_atoms, count_addFailure_atoms,
    countP_success_of_success _ hsucc, count_failure_of_success _ hsucc, hlen, hm0]
  have hdur : (trace.filterMap Atom.appended).Perm
      ((List.range n).map (fun w => (List.range k).map (fun j => d w j))).flatten := by
    refine (hp.filterMap _).trans ?_
    rw [appended_atoms]
    apply List.Perm.of_eq
    clear hp hsucc hlen h hb
    induction n with
    | zero => rfl
    | succ n ih =>
      rw [List.range_succ]
      simp only [List.map_append, List.flatten_append, List.filterMap_append, ih, List.map_cons,
        List.map_nil, List.flatten_cons, List.flatten_nil, List.append_nil]
      congr 1
      simp only [List.filterMap_map, Call.recorded, Function.comp_def]
      exact congrFun (List.filterMap_eq_map (fun j => d n j)) (List.range k)
  refine ⟨?_, ?_, ?_, ?_⟩
  · simp only [zero_add]
    apply wrap64_of_isInt64
    unfold isInt64
    have : ((n * k : ℕ) : Int) < 2 ^ 63 := by exact_mod_cast hb
    omega
  · rw [(sortSlice_perm _ _).length_eq]
    simp only [List.nil_append]
    rw [hdur.length_eq]
    have := flatten_map_range_length n k (fun w => (List.range k).map (fun j => Call.success (d w j)))
      (fun w => by simp)
    rw [← this]
    clear this hdur hp hsucc hlen h hb
    induction n with
    | zero => rfl
    | succ n ih =>
      rw [List.range_succ]
      simp only [List.map_append, List.flatten_append, List.length_append, ih, List.map_cons,
        List.map_nil, List.flatten_cons, List.flatten_nil, List.append_nil, List.length_map]
  · simp only [CharP.cast_eq_zero, add_zero]
    rfl
  · refine (sortSlice_perm _ _).trans ?_
    simpa using hdur

theorem concurrent_RecordSuccess_witness :
    New 4 = some (Metrics.mk 0 0 0 []) ∧
    interleave (producers 2 2 (fun w j => 10 * w + j)) [0, 1, 1, 0, 0, 1, 1, 0, 1, 0, 1, 0]
      = some [Atom.addSuccess, Atom.addSuccess, Atom.addTotal 10, Atom.addTotal 0,
          Atom.appendDuration 0, Atom.appendDuration 10, Atom.addSuccess, Atom.addSuccess,
          Atom.addTotal 11, Atom.addTotal 1, Atom.appendDuration 11, Atom.appendDuration 1] ∧
    ([Atom.addSuccess, Atom.addSuccess, Atom.addTotal 10, Atom.addTotal 0,
          Atom.appendDuration 0, Atom.appendDuration 10, Atom.addSuccess, Atom.addSuccess,
          Atom.addTotal 11, Atom.addTotal 1, Atom.appendDuration 11, Atom.appendDuration 1].foldl
        Metrics.apply (Metrics.mk 0 0 0 [])).Snapshot.SuccessCount = (2 * 2 : ℕ) :=
  ⟨by decide, by decide,
    ((concurrent_RecordSuccess 2 2 (fun w j => 10 * w + j) 4 (Metrics.mk 0 0 0 []) (by decide)
      (by decide)).2 [0, 1, 1, 0, 0, 1, 1, 0, 1, 0, 1, 0] _ (by decide)).1⟩

/-- Claim C16. A call of `Snapshot` leaves the collector as it found it, counters,
cumulative total and duration collection in its recording order, and returns the
sorted copy; two calls with no record in between return equal snapshots; a trace of a
run ends in the same collector state as the trace without its snapshot steps; and two
runs of the same workers under the same requests end with the same final snapshot,
with or without the progress reporter and whatever their schedules. -/
theorem Snapshot_observational :
    (∀ m : Metrics, m.SnapshotCall.2 = m ∧ m.SnapshotCall.1 = m.Snapshot) ∧
    (∀ m : Metrics, m.SnapshotCall.2.SnapshotCall.1 = m.SnapshotCall.1) ∧
    (∀ (trace : List Atom) (m : Metrics),
      trace.foldl Metrics.apply m
        = (trace.filter (fun a => decide (a ≠ Atom.snapshot))).foldl Metrics.apply m) ∧
    (∀ (cfg cfg2 : Config) (env env2 : RunEnv),
      cfg2.Requests = cfg.Requests → cfg2.Concurrency = cfg.Concurrency →
      env2.ctxDone = env.ctxDone → env2.outcome = env.outcome →
      ∀ schedule schedule2 s s2,
        Run cfg env schedule = some s → Run cfg2 env2 schedule2 = some s2 → s2 = s) := by
  refine ⟨fun m => ⟨SnapshotCall_snd m, SnapshotCall_fst m⟩, fun m => rfl,
    foldl_apply_filter_snapshot, ?_⟩
  intro cfg cfg2 env env2 hR hC hcd hoc schedule schedule2 s s2 h h2
  obtain ⟨m, n, hm, hn, hs⟩ := Run_eq_sequential cfg env schedule s h
  obtain ⟨m2, n2, hm2, hn2, hs2⟩ := Run_eq_sequential cfg2 env2 schedule2 s2 h2
  rw [hR, hm] at hm2
  have e1 : m2 = m := (Option.some.inj hm2).symm
  have e2 : n2 = n := by
    unfold Config.RequestsPerWorker at hn hn2
    rw [hR, hC, hn] at hn2
    exact (Option.some.inj hn2).symm
  rw [hs, hs2, e1, e2]
  unfold Run.calls
  rw [hC, hcd, hoc]

theorem Snapshot_observational_witness :
    Run ⟨"http://127.0.0.1", "GET", 1, 2, [], none, true⟩
        ⟨fun _ _ => false, fun _ i => Outcome.response 200 (5 - i), 2⟩ [0, 1, 0, 0, 0, 1, 0, 0]
      = some (Snapshot.mk 2 0 9 [4, 5]) ∧
    Run ⟨"http://127.0.0.1", "GET", 1, 2, [], none, false⟩
        ⟨fun _ _ => false, fun _ i => Outcome.response 200 (5 - i), 0⟩ [0, 0, 0, 0, 0, 0]
      = some (Snapshot.mk 2 0 9 [4, 5]) ∧
    Snapshot.mk 2 0 9 [4, 5] = Snapshot.mk 2 0 9 [4, 5] :=
  ⟨by decide, by decide,
    Snapshot_observational.2.2.2
      ⟨"http://127.0.0.1", "GET", 1, 2, [], none, true⟩
      ⟨"http://127.0.0.1", "GET", 1, 2, [], none, false⟩
      ⟨fun _ _ => false, fun _ i => Outcome.response 200 (5 - i), 2⟩
      ⟨fun _ _ => false, fun _ i => Outcome.response 200 (5 - i), 0⟩
      rfl rfl rfl rfl [0, 1, 0, 0, 0, 1, 0, 0] [0, 0, 0, 0, 0, 0] _ _ (by decide) (by decide)⟩

/-- Claim C17. For every input `s`, `ParseHTTPMethod(s)` returns no error if and only
if the upper-cased `s` is one of GET, POST, PUT, PATCH, DELETE, HEAD, OPTIONS, CONNECT,
TRACE, and then returns that upper-cased text as the method; otherwise it returns the
empty method with an error. So `get` and `Post` give GET and POST, and the empty
string gives an error. -/
theorem ParseHTTPMethod_spec :
    (∀ s : String,
      ((ParseHTTPMethod s).2 = none ↔
        stringsToUpper s ∈
          ["GET", "POST", "PUT", "PATCH", "DELETE", "HEAD", "OPTIONS", "CONNECT", "TRACE"]) ∧
      ((ParseHTTPMethod s).2 = none → (ParseHTTPMethod s).1 = stringsToUpper s) ∧
      ((ParseHTTPMethod s).2 ≠ none →
        ParseHTTPMethod s = ("", some (MethodError.invalidMethod s)))) ∧
    ParseHTTPMethod "get" = ("GET", none) ∧
    ParseHTTPMethod "Post" = ("POST", none) ∧
    ParseHTTPMethod "" = ("", some (MethodError.invalidMethod "")) := by
  refine ⟨?_, by decide, by decide, by decide⟩
  intro s
  have hm := validMethodsAt_iff (stringsToUpper s)
  unfold ParseHTTPMethod
  by_cases h : validMethodsAt (stringsToUpper s) = true
  · simp [h, hm.mp h]
  · have h' : stringsToUpper s ∉
        ["GET", "POST", "PUT", "PATCH", "DELETE", "HEAD", "OPTIONS", "CONNECT", "TRACE"] :=
      fun hc => h (hm.mpr hc)
    simp [h, h']

theorem ParseHTTPMethod_spec_witness :
    (ParseHTTPMethod "delete").2 = none ∧
    (ParseHTTPMethod "delete").1 = stringsToUpper "delete" ∧
    ParseHTTPMethod "INVALID" = ("", some (MethodError.invalidMethod "INVALID")) :=
  ⟨by decide, (ParseHTTPMethod_spec.1 "delete").2.1 (by decide),
    (ParseHTTPMethod_spec.1 "INVALID").2.2 (by decide)⟩

/-- Claim C18. `ParseCookie("")` returns no cookie and no error. A non-empty `s` with
no `=` gives an error, and so does an `s` that starts with `=` (empty name). In every
other case the cookie has as `Name` the text before the first `=` and as `Value`
everything after it, later `=` included and possibly empty: a returned cookie always
has a non-empty name without `=` and satisfies `Name + "=" + Value = s`. An error is
returned in the two error cases only. -/
theorem ParseCookie_spec :
    ParseCookie "" = (none, none) ∧
    (∀ s : String, s ≠ "" → '=' ∉ s.data →
      ParseCookie s = (none, some (CookieError.invalidFormat s))) ∧
    (∀ value : String, ParseCookie ("=" ++ value) = (none, some CookieError.emptyName)) ∧
    (∀ name value : String, name ≠ "" → '=' ∉ name.data →
      ParseCookie (name ++ "=" ++ value) = (some { Name := name, Value := value }, none)) ∧
    (∀ (s : String) (c : Cookie), (ParseCookie s).1 = some c →
      (ParseCookie s).2 = none ∧ c.Name ≠ "" ∧ '=' ∉ c.Name.data ∧
        c.Name ++ "=" ++ c.Value = s) ∧
    (∀ s : String, (ParseCookie s).2 ≠ none ↔
      (s ≠ "" ∧ ('=' ∉ s.data ∨ ∃ value : String, s = "=" ++ value))) := by
  have hnameval : ∀ name value : String,
      (name ++ "=" ++ value).data = name.data ++ '=' :: value.data := by
    intro name value
    simp [String.data_append]
  have hcases : ∀ s : String, s ≠ "" →
      ('=' ∉ s.data ∧ ParseCookie s = (none, some (CookieError.invalidFormat s))) ∨
      (∃ value : String, s = "=" ++ value ∧ ParseCookie s = (none, some CookieError.emptyName)) ∨
      (∃ name value : String, name ≠ "" ∧ '=' ∉ name.data ∧ s = name ++ "=" ++ value ∧
        ParseCookie s = (some { Name := name, Value := value }, none)) := by
    intro s hs
    cases hcut : cutChars '=' s.data with
    | none =>
      left
      refine ⟨?_, by simp [ParseCookie, hs, hcut]⟩
      intro hmem
      obtain ⟨a', b', h1, h2⟩ := exists_first_sep '=' s.data hmem
      rw [h1, cutChars_append _ _ _ h2] at hcut
      simp at hcut
    | some p =>
      obtain ⟨a, b⟩ := p
      obtain ⟨h1, h2⟩ := cutChars_some _ _ _ _ hcut
      right
      by_cases ha : a = []
      · left
        refine ⟨String.mk b, ?_, ?_⟩
        · apply String.ext
          rw [h1, ha]
          simp [String.data_append]
        · simp [ParseCookie, hs, hcut, ha]
      · right
        refine ⟨String.mk a, String.mk b, ?_, h2, ?_, ?_⟩
        · intro e
          exact ha ((mk_eq_empty_iff a).mp e)
        · apply String.ext
          rw [hnameval, h1]
        · have : ¬ String.mk a = "" := fun e => ha ((mk_eq_empty_iff a).mp e)
          simp [ParseCookie, hs, hcut, this]
  refine ⟨by decide, ?_, ?_, ?_, ?_, ?_⟩
  · intro s hs hno
    simp [ParseCookie, hs, cutChars_none _ _ hno]
  · intro value
    have hs : ("=" ++ value : String) ≠ "" := by
      intro e
      have := congrArg String.data e
      simp [String.data_append] at this
    have hd : ("=" ++ value : String).data = [] ++ '=' :: value.data := by
      simp [String.data_append]
    simp [ParseCookie, hs, hd, cutChars]
  · intro name value hname hno
    have hs : (name ++ "=" ++ value : String) ≠ "" := by
      intro e
      have := congrArg String.data e
      rw [hnameval] at this
      simp at this
    have hname' : ¬ String.mk name.data = "" := by
      intro e
      exact hname e
    simp only [ParseCookie, if_neg hs, hnameval, cutChars_append _ _ _ hno, if_neg hname']
  · intro s c hc
    by_cases hs : s = ""
    · subst hs
      simp [ParseCookie] at hc
    rcases hcases s hs with ⟨_, h⟩ | ⟨_, _, h⟩ | ⟨name, value, h1, h2, h3, h4⟩
    · rw [h] at hc; simp at hc
    · rw [h] at hc; simp at hc
    · rw [h4] at hc ⊢
      simp only [Option.some.injEq] at hc
      subst hc
      exact ⟨rfl, h1, h2, h3.symm⟩
  · intro s
    by_cases hs : s = ""
    · subst hs
      simp [ParseCookie]
    rcases hcases s hs with ⟨h0, h⟩ | ⟨value, h0, h⟩ | ⟨name, value, h1, h2, h3, h4⟩
    · rw [h]; simp [hs, h0]
    · rw [h]
      simp only [ne_eq, reduceCtorEq, not_false_eq_true, true_iff]
      exact ⟨hs, Or.inr ⟨value, h0⟩⟩
    · rw [h4]
      simp only [ne_eq, not_true_eq_false, false_iff, not_and, not_or, not_not, not_exists]
      intro _
      constructor
      · rw [h3, hnameval]; simp
      · intro v hv
        rw [h3] at hv
        have hv1 := congrArg String.data hv
        have hv2 : ("=" ++ v : String).data = '=' :: v.data := by simp [String.data_append]
        rw [hnameval, hv2] at hv1
        cases hn : name.data with
        | nil => exact h1 (String.ext hn)
        | cons x xs =>
          rw [hn] at hv1
          have hx : x = '=' := by
            have := List.head_eq_of_cons_eq hv1
            exact this
          apply h2
          rw [hn, hx]
          exact List.mem_cons_self _ _

theorem ParseCookie_spec_witness :
    ParseCookie ("foo" ++ "=" ++ "bar=baz") = (some { Name := "foo", Value := "bar=baz" }, none) ∧
    ParseCookie "foobar" = (none, some (CookieError.invalidFormat "foobar")) :=
  ⟨ParseCookie_spec.2.2.2.1 "foo" "bar=baz" (by decide) (by decide),
    ParseCookie_spec.2.1 "foobar" (by decide) (by decide)⟩

/-- Claim C19. For every sequence of `RecordSuccess` calls on a fresh collector, the
duration list of the snapshot taken afterwards is a permutation of the recorded
durations: same length, same number of occurrences of every value, same members. -/
theorem Snapshot_Durations_perm (n : Int) (m : Metrics) (ds : List Int) (hm : New n = some m) :
    (m.recordAll ds).Snapshot.Durations.Perm ds ∧
    (m.recordAll ds).Snapshot.Durations.length = ds.length ∧
    (∀ x : Int, (m.recordAll ds).Snapshot.Durations.count x = ds.count x) ∧
    (∀ x : Int, x ∈ (m.recordAll ds).Snapshot.Durations ↔ x ∈ ds) := by
  have hp : (m.recordAll ds).Snapshot.Durations.Perm ds := by
    simp only [Metrics.Snapshot, recordAll_durations, New_eq hm, List.nil_append]
    exact sortSlice_perm _ ds
  exact ⟨hp, hp.length_eq, fun x => hp.count_eq x, fun x => hp.mem_iff⟩

theorem Snapshot_Durations_perm_witness :
    New 5 = some (Metrics.mk 0 0 0 []) ∧
    ((Metrics.mk 0 0 0 []).recordAll [300, 100, 300, 200]).Snapshot.Durations.Perm
      [300, 100, 300, 200] :=
  ⟨by decide, (Snapshot_Durations_perm 5 (Metrics.mk 0 0 0 []) [300, 100, 300, 200]
    (by decide)).1⟩

/-- Claim C20. For every snapshot with a non-empty duration list (of at most `2^52`
entries) and every `p` with `0 ≤ p ≤ 100`, the index that `Percentile` computes lies
between 0 and `len(Durations) - 1`, so the lookup does not go out of range and the
value returned is an element of `Durations`. The fixed points 50, 66, 75, 80, 90, 95,
98, 99, 100 of the report all lie in that interval, and `Percentile` returns an
element of `Durations` at each of them. -/
theorem Percentile_index_in_range :
    (∀ (s : Snapshot) (q : ℚ), s.Durations ≠ [] → s.Durations.length ≤ 2 ^ 52 →
      0 ≤ q → q ≤ 100 →
      ∃ i : ℕ, ∃ hi : i < s.Durations.length,
        s.percentileIndex (Float64.fin q) = some (i : ℤ) ∧
        s.Percentile (Float64.fin q) = some (s.Durations.get ⟨i, hi⟩) ∧
        s.Durations.get ⟨i, hi⟩ ∈ s.Durations) ∧
    (∀ q ∈ percentiles, (0 : ℚ) ≤ q ∧ q ≤ 100) ∧
    (∀ s : Snapshot, s.Durations ≠ [] → s.Durations.length ≤ 2 ^ 52 →
      ∀ q ∈ percentiles, ∃ d ∈ s.Durations, s.Percentile (Float64.fin q) = some d) := by
  have hrange : ∀ q ∈ percentiles, (0 : ℚ) ≤ q ∧ q ≤ 100 := by
    intro q hq
    simp only [percentiles, List.mem_cons, List.mem_singleton, List.not_mem_nil, or_false] at hq
    rcases hq with h | h | h | h | h | h | h | h | h <;> subst h <;> norm_num
  have hgen : ∀ (s : Snapshot) (q : ℚ), s.Durations ≠ [] → s.Durations.length ≤ 2 ^ 52 →
      0 ≤ q → q ≤ 100 →
      ∃ i : ℕ, ∃ hi : i < s.Durations.length,
        s.percentileIndex (Float64.fin q) = some (i : ℤ) ∧
        s.Percentile (Float64.fin q) = some (s.Durations.get ⟨i, hi⟩) ∧
        s.Durations.get ⟨i, hi⟩ ∈ s.Durations := by
    intro s q hne hlen h0 h100
    obtain ⟨i, hi, _, h2, h3⟩ := Percentile_fin s q hne
      (lt_of_le_of_lt hlen (by norm_num)) h0 h100
    exact ⟨i, hi, h2, h3, List.get_mem _ _ _⟩
  refine ⟨hgen, hrange, ?_⟩
  intro s hne hlen q hq
  obtain ⟨i, hi, _, h2, h3⟩ := hgen s q hne hlen (hrange q hq).1 (hrange q hq).2
  exact ⟨_, h3, h2⟩

theorem Percentile_index_in_range_witness :
    ∃ d ∈ (Snapshot.mk 3 0 600 [100, 200, 300]).Durations,
      (Snapshot.mk 3 0 600 [100, 200, 300]).Percentile (Float64.fin 66) = some d :=
  Percentile_index_in_range.2.2 (Snapshot.mk 3 0 600 [100, 200, 300]) (by decide) (by decide) 66
    (by simp [percentiles])

/-! ## The claim on the average -/

theorem length_mul_le_sum (l : List Int) (lo : Int) (h : ∀ x ∈ l, lo ≤ x) :
    (l.length : Int) * lo ≤ l.sum := by
  induction l with
  | nil => simp
  | cons a l ih =>
    have ha := h a (List.mem_cons_self _ _)
    have := ih (fun x hx => h x (List.mem_cons_of_mem _ hx))
    simp only [List.length_cons, List.sum_cons]
    push_cast
    linarith

theorem sum_le_length_mul (l : List Int) (hi : Int) (h : ∀ x ∈ l, x ≤ hi) :
    l.sum ≤ (l.length : Int) * hi := by
  induction l with
  | nil => simp
  | cons a l ih =>
    have ha := h a (List.mem_cons_self _ _)
    have := ih (fun x hx => h x (List.mem_cons_of_mem _ hx))
    simp only [List.length_cons, List.sum_cons]
    push_cast
    linarith

theorem Percentile_0_first (s : Snapshot) (hne : s.Durations ≠ [])
    (hlen : s.Durations.length < 2 ^ 53) :
    s.Percentile (Float64.fin 0) = some (s.Durations.get ⟨0, List.length_pos.mpr hne⟩) := by
  obtain ⟨i, hi, h1, _, h3⟩ := Percentile_fin s 0 hne hlen (le_refl _) (by norm_num)
  have hpos : 0 < s.Durations.length := List.length_pos.mpr hne
  simp only [zero_div, roundQ_zero, zero_mul, Int.floor_zero] at h1
  have hi0 : i = 0 := by omega
  subst hi0
  exact h3

theorem Percentile_100_last (s : Snapshot) (hne : s.Durations ≠ [])
    (hlen : s.Durations.length < 2 ^ 53) :
    s.Percentile (Float64.fin 100)
      = some (s.Durations.get ⟨s.Durations.length - 1,
          Nat.sub_lt (List.length_pos.mpr hne) Nat.one_pos⟩) := by
  obtain ⟨i, hi, h1, _, h3⟩ := Percentile_fin s 100 hne hlen (by norm_num) (le_refl _)
  have hpos : 0 < s.Durations.length := List.length_pos.mpr hne
  have e1 : roundQ (100 / 100) = 1 := by norm_num [roundQ_one]
  rw [e1, one_mul, roundQ_natCast _ hlen, Int.floor_natCast] at h1
  have hil : i = s.Durations.length - 1 := by omega
  subst hil
  exact h3

/-- Claim C21. For every non-empty sequence of non-negative durations (at most `2^52`
of them) recorded with `RecordSuccess` on a fresh collector, their sum lying in the
int64 range, the snapshot taken afterwards returns a value from `Percentile(0)`, from
`AverageTime()` and from `Percentile(100)`, and `Percentile(0) ≤ AverageTime() ≤
Percentile(100)`: the first is the smallest recorded duration, the last the largest,
and the average is the sum divided by the count, fraction discarded. -/
theorem AverageTime_between (n : Int) (m : Metrics) (ds : List Int) (hm : New n = some m)
    (hne : ds ≠ []) (hnonneg : ∀ d ∈ ds, 0 ≤ d) (hsum : isInt64 ds.sum)
    (hlen : ds.length ≤ 2 ^ 52) :
    ∃ lo avg hi : Int,
      (m.recordAll ds).Snapshot.Percentile (Float64.fin 0) = some lo ∧
      (m.recordAll ds).Snapshot.AverageTime = some avg ∧
      (m.recordAll ds).Snapshot.Percentile (Float64.fin 100) = some hi ∧
      lo ≤ avg ∧ avg ≤ hi ∧
      lo ∈ ds ∧ (∀ x ∈ ds, lo ≤ x) ∧ hi ∈ ds ∧ (∀ x ∈ ds, x ≤ hi) ∧
      avg = ds.sum / ds.length := by
  have hm0 := New_eq hm
  have hD : (m.recordAll ds).Snapshot.Durations = sortSlice (fun a b => decide (a < b)) ds := by
    simp only [Metrics.Snapshot, recordAll_durations, hm0, List.nil_append]
  have hperm : (m.recordAll ds).Snapshot.Durations.Perm ds := by
    rw [hD]; exact sortSlice_perm _ ds
  have hsorted : (m.recordAll ds).Snapshot.Durations.Sorted (· ≤ ·) := by
    rw [hD]; exact sortSlice_sorted ds
  have hlenD : (m.recordAll ds).Snapshot.Durations.length = ds.length := hperm.length_eq
  have hpos : 0 < ds.length := List.length_pos.mpr hne
  have hneD : (m.recordAll ds).Snapshot.Durations ≠ [] := by
    intro h
    rw [h] at hlenD
    simp at hlenD
    omega
  have hlen53 : (m.recordAll ds).Snapshot.Durations.length < 2 ^ 53 := by
    rw [hlenD]; exact lt_of_le_of_lt hlen (by norm_num)
  have hP0 := Percentile_0_first _ hneD hlen53
  have hP100 := Percentile_100_last _ hneD hlen53
  have hI := recordAll_isInt64 m ds (by rw [hm0]; decide) (by rw [hm0]; decide)
  have hT : (m.recordAll ds).Snapshot.TotalTime = ds.sum := by
    have := recordAll_totalTime m ds
    rw [wrap64_of_isInt64 hI.2] at this
    show (m.recordAll ds).totalTime = ds.sum
    rw [this, hm0]
    simp only [zero_add]
    exact wrap64_of_isInt64 hsum
  have hlenInt : (ds.length : Int) ≤ 2 ^ 52 := by exact_mod_cast hlen
  have hS : (m.recordAll ds).Snapshot.SuccessCount = ds.length := by
    have := recordAll_successCount m ds
    rw [wrap64_of_isInt64 hI.1] at this
    show (m.recordAll ds).successCount = ds.length
    rw [this, hm0]
    simp only [zero_add]
    apply wrap64_of_isInt64
    unfold isInt64
    omega
  have hfirst : ∀ x ∈ ds, (m.recordAll ds).Snapshot.Durations.get
      ⟨0, List.length_pos.mpr hneD⟩ ≤ x := by
    intro x hx
    obtain ⟨j, hj⟩ := List.get_of_mem (hperm.symm.subset hx)
    rw [← hj]
    exact hsorted.rel_get_of_le (a := ⟨0, List.length_pos.mpr hneD⟩) (b := j) (Nat.zero_le _)
  have hlast : ∀ x ∈ ds, x ≤ (m.recordAll ds).Snapshot.Durations.get
      ⟨(m.recordAll ds).Snapshot.Durations.length - 1,
        Nat.sub_lt (List.length_pos.mpr hneD) Nat.one_pos⟩ := by
    intro x hx
    obtain ⟨j, hj⟩ := List.get_of_mem (hperm.symm.subset hx)
    rw [← hj]
    have hjl := j.isLt
    exact hsorted.rel_get_of_le (a := j) (b := ⟨_, Nat.sub_lt (List.length_pos.mpr hneD)
      Nat.one_pos⟩) (by show j.val ≤ _ - 1; omega)
  have hsum0 : 0 ≤ ds.sum := List.sum_nonneg hnonneg
  have hlo := length_mul_le_sum ds _ hfirst
  have hhi := sum_le_length_mul ds _ hlast
  have hposI : (0 : Int) < ds.length := by exact_mod_cast hpos
  have hAvg : (m.recordAll ds).Snapshot.AverageTime = some (ds.sum / ds.length) := by
    unfold Snapshot.AverageTime div64
    rw [hS, hT, if_neg (by omega), if_neg (by omega), Int.tdiv_eq_ediv hsum0 hposI.le]
    congr 1
    apply wrap64_of_isInt64
    unfold isInt64 at hsum ⊢
    have h1 : 0 ≤ ds.sum / ds.length := Int.ediv_nonneg hsum0 hposI.le
    have h2 : ds.sum / ds.length ≤ ds.sum := Int.ediv_le_self _ hsum0
    omega
  refine ⟨_, _, _, hP0, hAvg, hP100, ?_, ?_, hperm.subset (List.get_mem _ _ _), hfirst,
    hperm.subset (List.get_mem _ _ _), hlast, rfl⟩
  · exact Int.le_ediv_of_mul_le hposI (by rw [mul_comm]; exact hlo)
  · exact Int.ediv_le_of_le_mul hposI (by rw [mul_comm]; exact hhi)

theorem AverageTime_between_witness :
    New 3 = some (Metrics.mk 0 0 0 []) ∧
    ∃ lo avg hi : Int,
      ((Metrics.mk 0 0 0 []).recordAll [300, 100, 201]).Snapshot.Percentile (Float64.fin 0)
        = some lo ∧
      ((Metrics.mk 0 0 0 []).recordAll [300, 100, 201]).Snapshot.AverageTime = some avg ∧
      ((Metrics.mk 0 0 0 []).recordAll [300, 100, 201]).Snapshot.Percentile (Float64.fin 100)
        = some hi ∧
      lo ≤ avg ∧ avg ≤ hi ∧
      lo ∈ [300, 100, 201] ∧ (∀ x ∈ [300, 100, 201], lo ≤ x) ∧
      hi ∈ [300, 100, 201] ∧ (∀ x ∈ [300, 100, 201], x ≤ hi) ∧
      avg = ([300, 100, 201] : List Int).sum / ([300, 100, 201] : List Int).length :=
  ⟨by decide,
    AverageTime_between 3 (Metrics.mk 0 0 0 []) [300, 100, 201] (by decide) (by decide)
      (by decide) (by decide) (by decide)⟩

end BrickHauler
